import Mathlib

/-!
Verification of the Tg-Down media downloader against its specification.

The Go source is shallowly embedded: pure computations become Lean
functions on `Nat` / `Int` / `String` / `List`; file-system and RPC side
effects become explicit event traces or state-passing functions.  Each
definition mirrors one Go function of the repository and is named after it
where Lean allows.  Go `int`/`int64` values that are non-negative by
construction (sizes, counters, durations) are modelled as `Nat`; signed
identifiers (message ids, chat ids) as `Int`.
-/

/-! ## Shared string helpers (models of Go `strings` functions) -/

/-- `strings.HasPrefix p s` at the character-list level. -/
def strHasPre (pre s : String) : Bool :=
  pre.data.isPrefixOf s.data

/-- Infix test on character lists: `true` iff `p` occurs contiguously in `l`.
Models the search underlying Go `strings.Contains`. -/
def listIsInfixOf (p l : List Char) : Bool :=
  match l with
  | [] => p.isPrefixOf []
  | _ :: rest => p.isPrefixOf l || listIsInfixOf p rest

/-- `strings.Contains s sub`. -/
def goContains (s sub : String) : Bool :=
  listIsInfixOf sub.data s.data

/-- Fuel-driven core of `replaceAll`; the fuel only bounds the recursion
depth (each step consumes at least one character, so any fuel of at least
the list length gives Go's behaviour) and keeps the definition structural,
hence kernel-computable. -/
def replaceAllAux (p r : List Char) : Nat → List Char → List Char
  | _, [] => []
  | 0, l => l
  | fuel + 1, c :: rest =>
    if p.isPrefixOf (c :: rest) then
      r ++ replaceAllAux p r fuel (List.drop (p.length - 1) rest)
    else c :: replaceAllAux p r fuel rest

/-- Left-to-right, non-overlapping replacement on character lists; mirrors
Go `strings.ReplaceAll` for a non-empty pattern `p`. -/
def replaceAll (p r : List Char) (l : List Char) : List Char :=
  replaceAllAux p r l.length l

/-- `strings.ReplaceAll s old new` (for non-empty `old`, the only use in the
source). -/
def goReplaceAll (s old new : String) : String :=
  ⟨replaceAll old.data new.data s.data⟩

/-- `true` iff the character list contains two consecutive dots, i.e. an
occurrence of the Go pattern `".."`. -/
def hasDotDot : List Char → Bool
  | a :: b :: rest => (decide (a = '.') && decide (b = '.')) || hasDotDot (b :: rest)
  | _ => false

/-- The decimal digit character for `m ≤ 9`. -/
def digitChar (m : Nat) : Char :=
  if m = 0 then '0' else if m = 1 then '1' else if m = 2 then '2'
  else if m = 3 then '3' else if m = 4 then '4' else if m = 5 then '5'
  else if m = 6 then '6' else if m = 7 then '7' else if m = 8 then '8' else '9'

/-- Fuel-driven digit extraction (structural, kernel-computable; any fuel of
at least `n` suffices since `n / 10 < n` for `n ≥ 10`). -/
def natDigitsAux : Nat → Nat → List Char
  | 0, n => [digitChar (n % 10)]
  | fuel + 1, n =>
    if n < 10 then [digitChar n]
    else natDigitsAux fuel (n / 10) ++ [digitChar (n % 10)]

/-- Decimal digits of a natural number, most significant first; the digit run
produced by Go `fmt.Sprintf("%d", n)` for `n ≥ 0`. -/
def natDigits (n : Nat) : List Char :=
  natDigitsAux n n

/-- Go `fmt.Sprintf("%d", i)` for a signed integer. -/
def intDecimal (i : Int) : String :=
  if i < 0 then "-" ++ ⟨natDigits i.natAbs⟩ else ⟨natDigits i.natAbs⟩

/-! ## Chunked downloader (`internal/downloader/chunked`)

`ChunkDownloader.DownloadToFile` and its helpers `performChunkedDownload`,
`sendChunkJobs`, `worker` and `finalizeDownload`. -/

namespace Chunked

/-- `numChunks := (size + int64(cd.chunkSize) - 1) / int64(cd.chunkSize)` from
`performChunkedDownload`. -/
def numChunks (chunkSize size : Nat) : Nat :=
  (size + chunkSize - 1) / chunkSize

/-- The list of `(offset, size)` chunk jobs produced by `sendChunkJobs`:
`offset := i * chunkSize`; `chunkSize_i := cd.chunkSize`, and if
`offset+chunkSize > size` then `chunkSize_i := size - offset`.  Workers call
the caller-supplied `downloadFunc(offset, limit)` with exactly these pairs. -/
def chunkJobs (chunkSize size : Nat) : List (Nat × Nat) :=
  (List.range (numChunks chunkSize size)).map fun i =>
    let offset := i * chunkSize
    let cs := if offset + chunkSize > size then size - offset else chunkSize
    (offset, cs)

/-- The Telegram API cap on `upload.getFile` limits: 512 KiB. -/
def maxAPILimit : Nat := 524288

/-- The Telegram API alignment granularity for offsets and limits. -/
def apiAlignment : Nat := 1024

/-- File-system and RPC events emitted by one `DownloadToFile` run, in program
order.  `syncTemp` is the event an `os.File.Sync` call would emit; the
embedding keeps the constructor so its absence in a trace is expressible. -/
inductive FileEvent where
  | mkDirAll
  | createTemp
  | truncateTemp
  | fetchChunk (offset len : Nat)
  | writeChunk (offset len : Nat)
  | syncTemp
  | closeTemp
  | renameTemp
  | removeTemp
  | sleepMs (ms : Nat)
deriving DecidableEq, Repr

/-- Events of the workers fetching and positionally writing chunks, in the
order the workers happen to complete them (a parameter: chunk completion is
concurrent and unordered). -/
def chunkEvents : List (Nat × Nat) → List FileEvent
  | [] => []
  | j :: rest => FileEvent.fetchChunk j.1 j.2 :: FileEvent.writeChunk j.1 j.2 :: chunkEvents rest

/-- `MaxRenameRetries = 5` from the chunked package constants. -/
def maxRenameRetries : Nat := 5

/-- `finalizeDownload`'s rename loop: up to `maxRenameRetries` attempts of
`os.Rename`; a failed attempt is followed by a 500 ms sleep
(`RenameSleepDuration`); when all attempts fail the temp file is removed and
an error returned.  `failures` is the number of leading attempts that fail
(environment). Returns the emitted events and whether the rename succeeded. -/
def finalizeAux : Nat → Nat → List FileEvent × Bool
  | 0, _ => ([FileEvent.removeTemp], false)
  | _ + 1, 0 => ([FileEvent.renameTemp], true)
  | fuel + 1, f + 1 =>
    let rest := finalizeAux fuel f
    (FileEvent.renameTemp :: FileEvent.sleepMs 500 :: rest.1, rest.2)

/-- `finalizeDownload tempPath filePath` modelled by its event trace given the
number of failing rename attempts. -/
def finalizeDownload (failures : Nat) : List FileEvent × Bool :=
  finalizeAux maxRenameRetries failures

/-- Trace of a `DownloadToFile` run in which every chunk fetch succeeds,
parameterised by the order `order` in which the workers complete the chunk
jobs and by the number of failing rename attempts.  Mirrors the source:
`MkdirAll`; create + truncate of `tempPath = filePath + ".tmp"`; the chunk
fan-out; `finalizeDownload`; and the deferred `file.Close()` which runs when
`DownloadToFile` returns — i.e. after the rename.  No `Sync` is called.
Returns the trace and whether the run succeeded. -/
def downloadToFileTrace (order : List (Nat × Nat)) (renameFailures : Nat) :
    List FileEvent × Bool :=
  let fin := finalizeDownload renameFailures
  ([FileEvent.mkDirAll, FileEvent.createTemp, FileEvent.truncateTemp] ++
    chunkEvents order ++ fin.1 ++ [FileEvent.closeTemp], fin.2)

/-- Trace of a `DownloadToFile` run in which one chunk job fails all three of
its fetch attempts (worker retry loop: `MaxDownloadRetries = 3`, sleeping
`(retry+1) * time.Second` after each failure): the error reaches
`waitForCompletion`, `DownloadToFile` removes the temp file and returns the
error; the deferred close runs last.  `completed` are the chunk jobs finished
before the failure. -/
def downloadToFileChunkErrorTrace (completed : List (Nat × Nat)) (failedJob : Nat × Nat) :
    List FileEvent :=
  [FileEvent.mkDirAll, FileEvent.createTemp, FileEvent.truncateTemp] ++
    chunkEvents completed ++
    [FileEvent.fetchChunk failedJob.1 failedJob.2, FileEvent.sleepMs 1000,
     FileEvent.fetchChunk failedJob.1 failedJob.2, FileEvent.sleepMs 2000,
     FileEvent.fetchChunk failedJob.1 failedJob.2, FileEvent.sleepMs 3000,
     FileEvent.removeTemp, FileEvent.closeTemp]

/-- Chunk fetch/write events. -/
def isChunkEvent : FileEvent → Bool
  | FileEvent.fetchChunk _ _ => true
  | FileEvent.writeChunk _ _ => true
  | _ => false

/-- Rename events. -/
def isRenameEvent : FileEvent → Bool
  | FileEvent.renameTemp => true
  | _ => false

end Chunked

/-! ## History walker (`Client.DownloadHistoryMedia` + `GetMediaMessages`)

The Telegram server is abstracted as the successive pages it returns for the
walker's paged `messages.getHistory` requests; `extractMediaInfo` is
abstracted to the per-message flag of whether a descriptor is extracted
(`tg.Message` with photo or document media). -/

namespace Walker

/-- A history message as the walker sees it: its id and whether
`extractMediaInfo` yields a media descriptor for it. -/
structure HMsg where
  id : Int
  hasMedia : Bool
deriving DecidableEq, Repr

/-- Number of descriptors `GetMediaMessages` extracts from one page:
the messages for which `extractMediaInfo` returns non-nil. -/
def mediaCount (page : List HMsg) : Nat :=
  (page.filter fun m => m.hasMedia).length

/-- The `for` loop of `DownloadHistoryMedia`: request a page of at most
`batchSize` messages, extract descriptors, download the batch, and continue
until the extracted list is empty or shorter than `batchSize`.  The server is
modelled by the page sequence it would serve to the successive requests; a
missing page means the server returns no messages.  Result: (number of page
requests issued, total number of descriptors processed). -/
def walkPages (batchSize : Nat) : List (List HMsg) → Nat × Nat
  | [] => (1, 0)
  | page :: rest =>
    let m := mediaCount page
    if m = 0 then (1, 0)
    else if m < batchSize then (1, m)
    else
      let r := walkPages batchSize rest
      (r.1 + 1, m + r.2)

/-- A page of `n` messages, every one of which carries media. -/
def mkPage (n : Nat) : List HMsg :=
  (List.range n).map fun i => ⟨(i : Int), true⟩

end Walker

/-! ## Middleware (`internal/middleware/floodwait`, `internal/middleware/ratelimit`)

An invoker is modelled as a function of the transport-invocation counter,
returning the events it emits, its result, and the updated counter. -/

namespace Middleware

/-- Result of an invocation as the middlewares classify it: success, a
non-flood error (code), the raw flood-wait error (with its wait duration in
nanoseconds as carried by `tgerr.AsFloodWait`), or the two wrapped errors the
flood waiter can produce. -/
inductive Res where
  | ok
  | errOther (code : Nat)
  | errFlood (w : Nat)
  | errFloodLimit (w : Nat)
  | errFloodTooLong (w : Nat)
deriving DecidableEq, Repr

/-- Observable events of the middleware stack: a rate-limit token
acquisition, a transport invocation (with its index), or a sleep. -/
inductive Ev where
  | acquire
  | invokeTransport (n : Nat)
  | sleepNs (w : Nat)
deriving DecidableEq, Repr

/-- An invoker: takes the transport-invocation counter, returns emitted
events, result, and new counter. -/
def Invoker : Type := Nat → List Ev × Res × Nat

/-- The raw transport: invocation `n` returns `resps n`. -/
def transport (resps : Nat → Res) : Invoker :=
  fun n => ([Ev.invokeTransport n], resps n, n + 1)

/-- `ratelimit.Limiter.Handle`: wait for a token (`limiter.Wait(ctx)`), then
invoke `next`. -/
def rateLimitHandle (next : Invoker) : Invoker := fun n =>
  let r := next n
  (Ev.acquire :: r.1, r.2.1, r.2.2)

/-- `MinWaitTime = time.Second` in nanoseconds. -/
def minWaitNs : Nat := 1000000000

/-- `DefaultMaxWait = 5 * time.Minute` in nanoseconds. -/
def maxWaitNs : Nat := 300000000000

/-- `DefaultMaxRetries = 5`. -/
def floodMaxRetries : Nat := 5

/-- The retry loop of `floodwait.Waiter.Handle`: invoke `next`; on success or
a non-flood error return immediately; on a flood-wait error, if the retry
budget is exhausted return the wrapped limit error; otherwise raise the wait
to `MinWaitTime`, fail with the wrapped too-long error if it exceeds
`maxWait`, else sleep it and retry.  `fuel` counts the remaining loop
iterations (`attempt ≤ maxRetries` admits `maxRetries+1` of them, so the
fuel-exhausted branch returning `lastErr` is the dead `return lastErr` after
the Go loop). -/
def floodLoop (next : Invoker) : Nat → Res → Nat → Nat → List Ev × Res × Nat
  | 0, lastErr, _, n => ([], lastErr, n)
  | fuel + 1, _, attempt, n =>
    let out := next n
    match out.2.1 with
    | Res.ok => (out.1, Res.ok, out.2.2)
    | Res.errFlood w =>
      if floodMaxRetries ≤ attempt then (out.1, Res.errFloodLimit w, out.2.2)
      else
        let wd := max w minWaitNs
        if maxWaitNs < wd then (out.1, Res.errFloodTooLong w, out.2.2)
        else
          let rest := floodLoop next fuel (Res.errFlood w) (attempt + 1) out.2.2
          (out.1 ++ Ev.sleepNs wd :: rest.1, rest.2.1, rest.2.2)
    | e => (out.1, e, out.2.2)

/-- `floodwait.Waiter.Handle` with the default configuration used by
`telegram.New` (`maxRetries = 5`, `maxWait = 5 min`). -/
def floodWaitHandle (next : Invoker) : Invoker := fun n =>
  floodLoop next (floodMaxRetries + 1) Res.ok 0 n

/-- gotd's `telegram.chainMiddlewares`: folds the middleware slice from the
last element inwards, so the first middleware of the slice is the outermost
wrapper — `chainMiddlewares(t, m1, m2) = m1.Handle(m2.Handle(t))`.  (The
chaining itself lives in the gotd library; the slice passed to it comes from
`session.Manager.CreateClientWithMiddleware`.) -/
def chainMiddlewares (invoker : Invoker) (chain : List (Invoker → Invoker)) : Invoker :=
  chain.foldr (fun m acc => m acc) invoker

/-- The middleware stack assembled by `telegram.New` / `NewWithUpdates`:
`CreateClientWithMiddleware(apiID, apiHash, phone, floodWaiter, rateLimiter)`,
i.e. `Middlewares = [floodWaiter, rateLimiter]`. -/
def assembledInvoker (resps : Nat → Res) : Invoker :=
  chainMiddlewares (transport resps) [floodWaitHandle, rateLimitHandle]

/-- The stack in the order the specification asserts (`[Transport] ←
FloodWaiter ← RateLimiter ← Caller`, flood waiter adjacent to the
transport): `Middlewares = [rateLimiter, floodWaiter]`. -/
def claimedOrderInvoker (resps : Nat → Res) : Invoker :=
  chainMiddlewares (transport resps) [rateLimitHandle, floodWaitHandle]

/-- Sleep durations occurring in an event list, in order. -/
def sleepsOf (evs : List Ev) : List Nat :=
  evs.filterMap fun e => match e with | Ev.sleepNs w => some w | _ => none

/-- Number of token acquisitions in an event list. -/
def acquireCount (evs : List Ev) : Nat :=
  (evs.filter fun e => match e with | Ev.acquire => true | _ => false).length

/-- Number of transport invocations in an event list. -/
def invokeCount (evs : List Ev) : Nat :=
  (evs.filter fun e => match e with | Ev.invokeTransport _ => true | _ => false).length

/-- `true` iff every transport invocation in the list is immediately preceded
by a token acquisition. -/
def invokesPaired : List Ev → Bool
  | [] => true
  | Ev.acquire :: Ev.invokeTransport _ :: rest => invokesPaired rest
  | Ev.invokeTransport _ :: _ => false
  | _ :: rest => invokesPaired rest

end Middleware

/-! ## Retrier (`internal/retry`) -/

namespace Retry

/-- `DefaultShouldRetry`: an error is retryable iff its message contains one
of the network-related or Telegram service-migration substrings.  `none`
models a nil error. -/
def DefaultShouldRetry (err : Option String) : Bool :=
  match err with
  | none => false
  | some s =>
    if goContains s "connection" || goContains s "timeout" ||
        goContains s "network" || goContains s "temporary" then true
    else if goContains s "INTERNAL_SERVER_ERROR" || goContains s "NETWORK_MIGRATE" ||
        goContains s "PHONE_MIGRATE" || goContains s "FILE_MIGRATE" ||
        goContains s "USER_MIGRATE" || goContains s "STATS_MIGRATE" then true
    else false

/-- The ten substrings `DefaultShouldRetry` tests, as listed in the source. -/
def retryableSentinels : List String :=
  ["connection", "timeout", "network", "temporary", "INTERNAL_SERVER_ERROR",
   "NETWORK_MIGRATE", "PHONE_MIGRATE", "FILE_MIGRATE", "USER_MIGRATE", "STATS_MIGRATE"]

/-- Outcome of `Retrier.Do`. -/
inductive DoOutcome where
  | ok
  | passthrough (e : String)
  | exhausted (lastErr : String)
deriving DecidableEq, Repr

/-- The attempt loop of `Retrier.Do` (delays elided): `results n` is the
error of the `n`-th execution of `fn` (`none` = success).  On success return
nil; on a non-retryable error return it unchanged; at `attempt = maxRetries`
break and return the wrapped exhaustion error; otherwise back off and retry.
Returns the outcome and the number of invocations of `fn`.  `fuel` counts the
remaining iterations of `attempt ≤ maxRetries`; the fuel-exhausted branch is
dead for the initial fuel `maxRetries + 1`. -/
def doAux (sr : String → Bool) (results : Nat → Option String) (maxRetries : Nat) :
    Nat → Nat → DoOutcome × Nat
  | 0, attempt => (DoOutcome.exhausted "", attempt)
  | fuel + 1, attempt =>
    match results attempt with
    | none => (DoOutcome.ok, attempt + 1)
    | some e =>
      if sr e = false then (DoOutcome.passthrough e, attempt + 1)
      else if attempt = maxRetries then (DoOutcome.exhausted e, attempt + 1)
      else doAux sr results maxRetries fuel (attempt + 1)

/-- `Retrier.Do` with classifier `sr` and `maxRetries`. -/
def retrierDo (sr : String → Bool) (results : Nat → Option String) (maxRetries : Nat) :
    DoOutcome × Nat :=
  doAux sr results maxRetries (maxRetries + 1) 0

end Retry

/-! ## Path model (Go `path/filepath` on the Unix build)

A path string is represented by its absoluteness flag and the list of
components obtained by splitting on the separator; a component may still be
`""`, `"."` or `".."` before cleaning.  `render` recovers the path string.
`cleanAux` is the component-level algorithm of `filepath.Clean`; `Join`,
`Abs` and `Rel` are built from it exactly as in the standard library. -/

namespace GoPath

/-- A path: absolute flag plus components (split on `/`). -/
structure GPath where
  absolute : Bool
  comps : List String
deriving DecidableEq, Repr

/-- A component that `filepath.Clean` copies verbatim. -/
def isNormalComp (c : String) : Bool :=
  !(c = "" : Bool) && !(c = "." : Bool) && !(c = ".." : Bool)

/-- The shape of a cleaned component list: leading `".."` backtracks (none on
a rooted path) followed by normal components. -/
def cleanShape (absolute : Bool) (ys : List String) : Prop :=
  ∃ k ns, ys = List.replicate k ".." ++ ns ∧ (∀ c ∈ ns, isNormalComp c = true) ∧
    (absolute = true → k = 0)

/-- The element-processing loop of `filepath.Clean`: empty and `.` components
are dropped; `..` pops the last emitted component unless it is itself a
`..`, and otherwise is dropped on rooted paths and kept on relative ones;
every other component is emitted. -/
def cleanAux (absolute : Bool) : List String → List String → List String
  | stack, [] => stack
  | stack, c :: rest =>
    if c = "" ∨ c = "." then cleanAux absolute stack rest
    else if c = ".." then
      if stack ≠ [] ∧ stack.getLast? ≠ some ".." then
        cleanAux absolute stack.dropLast rest
      else if absolute then cleanAux absolute stack rest
      else cleanAux absolute (stack ++ [".."]) rest
    else cleanAux absolute (stack ++ [c]) rest

/-- `filepath.Clean` at the component level. -/
def cleanComps (absolute : Bool) (cs : List String) : List String :=
  cleanAux absolute [] cs

/-- `filepath.Clean` on a path. -/
def goCleanP (p : GPath) : GPath :=
  ⟨p.absolute, cleanComps p.absolute p.comps⟩

/-- `filepath.Join(a, b)`: concatenate and clean (for the non-empty operands
the source joins). -/
def goJoinP (a b : GPath) : GPath :=
  goCleanP ⟨a.absolute, a.comps ++ b.comps⟩

/-- `filepath.Abs(p)` given the working directory `cwd` (itself absolute):
already-absolute paths are cleaned, relative ones are joined onto `cwd`. -/
def goAbsP (cwd p : GPath) : GPath :=
  if p.absolute then goCleanP p else goCleanP ⟨true, cwd.comps ++ p.comps⟩

/-- Components rendered with `/` separators. -/
def renderComps : List String → String
  | [] => ""
  | [c] => c
  | c :: rest => c ++ "/" ++ renderComps rest

/-- The path string of a `GPath` (a cleaned empty relative path renders as
`"."`, as `filepath.Clean` returns). -/
def render (p : GPath) : String :=
  if p.absolute then "/" ++ renderComps p.comps
  else if p.comps = [] then "." else renderComps p.comps

/-- Drop the longest common component run of two cleaned paths (the core of
`filepath.Rel`). -/
def dropCommon : List String → List String → List String × List String
  | a :: as, b :: bs => if a = b then dropCommon as bs else (a :: as, b :: bs)
  | as, bs => (as, bs)

/-- `filepath.Rel(base, target)` on the components of two cleaned absolute
paths (the only shapes the source feeds it, where it cannot error): one
`..` per residual base component, then the residual target components. -/
def goRelComps (base target : List String) : List String :=
  let p := dropCommon base target
  List.replicate p.1.length ".." ++ p.2

/-- The string `filepath.Rel` returns (empty residue renders as `"."`). -/
def renderRel (cs : List String) : String :=
  if cs = [] then "." else renderComps cs

/-- `Downloader.isSafePath(filePath, basePath)` of the hardened pool: absolute
both paths, take `Rel(base, file)`, and refuse when it starts with `".."` or
contains `"/.."`. -/
def isSafePath (cwd filePath basePath : GPath) : Bool :=
  let af := goAbsP cwd filePath
  let ab := goAbsP cwd basePath
  let rel := renderRel (goRelComps ab.comps af.comps)
  !(strHasPre ".." rel) && !(goContains rel "/..")

/-- Well-formed working directory for `filepath.Abs`: absolute, already
clean, with only normal components. -/
def cleanCwd (cwd : GPath) : Prop :=
  cwd.absolute = true ∧ ∀ c ∈ cwd.comps, isNormalComp c = true

end GoPath

/-! ## Download pools (`internal/downloader`)

Two variants of the pool exist in the source dump: `DownloaderA` models
`internal/downloader/downloader.go` (plain paths, `%s` format quirk for the
fallback name) and `DownloaderB` models the hardened `downloader` package
bundled with `internal/downloader/chunked/downloader.go` (sanitised names,
`isSafePath` check).  Both guard a stats struct with a mutex; the mutex is
modelled by the sequential state passing. -/

/-- `downloader.MediaInfo` (the fields the pool reads). -/
structure MediaInfo where
  messageID : Int
  fileID : Int
  fileName : String
  fileSize : Int
  mimeType : String
  chatID : Int
deriving DecidableEq, Repr

/-- `downloader.DownloadStats`. -/
structure DownloadStats where
  total : Nat
  downloaded : Nat
  failed : Nat
  skipped : Nat
  totalSize : Int
  downloadedSize : Int
deriving DecidableEq, Repr

/-- Pool state: the stats and the set of destination paths that exist on
disk (rendered strings), which is what `os.Stat(filePath) == nil` probes. -/
structure PoolState where
  stats : DownloadStats
  fs : List String
deriving DecidableEq, Repr

/-- `Downloader.updateStats(downloaded, size)`: success bumps `Downloaded`
and `DownloadedSize`, failure bumps `Failed`. -/
def updateStats (st : DownloadStats) (downloaded : Bool) (size : Int) : DownloadStats :=
  if downloaded then
    { st with downloaded := st.downloaded + 1, downloadedSize := st.downloadedSize + size }
  else
    { st with failed := st.failed + 1 }

/-- `Downloader.getFileExtension` (identical in both variants). -/
def getFileExtension (mimeType : String) : String :=
  if mimeType = "image/jpeg" then ".jpg"
  else if mimeType = "image/png" then ".png"
  else if mimeType = "image/gif" then ".gif"
  else if mimeType = "image/webp" then ".webp"
  else if mimeType = "video/mp4" then ".mp4"
  else if mimeType = "video/avi" then ".avi"
  else if mimeType = "video/mov" then ".mov"
  else if mimeType = "video/webm" then ".webm"
  else if mimeType = "audio/mp3" then ".mp3"
  else if mimeType = "audio/ogg" then ".ogg"
  else if mimeType = "application/pdf" then ".pdf"
  else ""

/-- Environment of one `DownloadMedia` call: whether `os.MkdirAll` succeeds,
whether a download function is registered (`SetDownloadFunc`), its result,
and the results of the placeholder branch's create and rename. -/
structure DlEnv where
  mkdirOk : Bool
  hasFn : Bool
  fnOk : Bool
  createOk : Bool
  renameOk : Bool
deriving DecidableEq, Repr

namespace DownloaderA

/-- The file name used by variant A: `media.FileName`, or the fallback
`fmt.Sprintf("file_%d_%s%s", MessageID, FileID, ext)` — note the `%s` verb
applied to the int64 `FileID`, which Go renders as `%!s(int64=N)`. -/
def fileNameA (m : MediaInfo) : String :=
  if m.fileName = "" then
    "file_" ++ intDecimal m.messageID ++ "_" ++ "%!s(int64=" ++ intDecimal m.fileID ++ ")" ++
      getFileExtension m.mimeType
  else m.fileName

/-- `filepath.Join(filepath.Join(downloadPath, "chat_<ChatID>"), fileName)`. -/
def destPathA (root : GoPath.GPath) (m : MediaInfo) : GoPath.GPath :=
  GoPath.goJoinP (GoPath.goJoinP root ⟨false, ["chat_" ++ intDecimal m.chatID]⟩)
    ⟨false, [fileNameA m]⟩

/-- `Downloader.DownloadMedia` of variant A as a state transition.  Returns
the new state, whether the call returned nil, and the number of invocations
of the registered download function. -/
def DownloadMedia (root : GoPath.GPath) (st : PoolState) (m : MediaInfo) (env : DlEnv) :
    PoolState × Bool × Nat :=
  if env.mkdirOk = false then
    ({ st with stats := updateStats st.stats false 0 }, false, 0)
  else
    let dest := GoPath.render (destPathA root m)
    if st.fs.contains dest then
      ({ st with stats := { st.stats with skipped := st.stats.skipped + 1 } }, true, 0)
    else if env.hasFn then
      if env.fnOk then
        ({ stats := updateStats st.stats true m.fileSize, fs := dest :: st.fs }, true, 1)
      else ({ st with stats := updateStats st.stats false 0 }, false, 1)
    else
      if env.createOk = false then
        ({ st with stats := updateStats st.stats false 0 }, false, 0)
      else if env.renameOk then
        ({ stats := updateStats st.stats true m.fileSize, fs := dest :: st.fs }, true, 0)
      else ({ st with stats := updateStats st.stats false 0 }, false, 0)

/-- Total declared size of a media list. -/
def sumSizes (list : List MediaInfo) : Int :=
  list.foldl (fun acc m => acc + m.fileSize) 0

/-- The stats pre-accounting of `DownloadBatch`, performed under the mutex
before any goroutine is spawned: `Total += len(mediaList)`,
`TotalSize += Σ FileSize`. -/
def downloadBatchStart (st : PoolState) (list : List MediaInfo) : PoolState :=
  { st with stats :=
      { st.stats with
        total := st.stats.total + list.length,
        totalSize := st.stats.totalSize + sumSizes list } }

/-- The spawned goroutines of `DownloadBatch` each run `DownloadMedia` once;
their mutex-serialised stats updates are modelled by folding the calls in
some order. -/
def runJobs (root : GoPath.GPath) : PoolState → List (MediaInfo × DlEnv) → PoolState
  | st, [] => st
  | st, (m, env) :: rest => runJobs root (DownloadMedia root st m env).1 rest

/-- `DownloadBatch(mediaList)` followed by `Wait()`. -/
def downloadBatchThenWait (root : GoPath.GPath) (st : PoolState)
    (jobs : List (MediaInfo × DlEnv)) : PoolState :=
  runJobs root (downloadBatchStart st (jobs.map Prod.fst)) jobs

end DownloaderA

namespace DownloaderB

/-- The replacement chain of `Downloader.sanitizeFileName`: the ten
`strings.ReplaceAll` calls, in source order. -/
def sanitizeCore (fileName : String) : String :=
  let s1 := goReplaceAll fileName "/" "_"
  let s2 := goReplaceAll s1 "\\" "_"
  let s3 := goReplaceAll s2 ".." "_"
  let s4 := goReplaceAll s3 ":" "_"
  let s5 := goReplaceAll s4 "*" "_"
  let s6 := goReplaceAll s5 "?" "_"
  let s7 := goReplaceAll s6 "\"" "_"
  let s8 := goReplaceAll s7 "<" "_"
  let s9 := goReplaceAll s8 ">" "_"
  let s10 := goReplaceAll s9 "|" "_"
  s10

/-- The characters `sanitizeFileName` replaces (the `".."` sequence is
handled separately). -/
def bannedChars : List Char :=
  ['/', '\\', ':', '*', '?', '"', '<', '>', '|']

/-- `Downloader.sanitizeFileName` of the hardened pool: replace the dangerous
characters and the `".."` sequence by `"_"`, then fall back to
`"unnamed_file"` when the result is empty, `"."` or `".."`. -/
def sanitizeFileName (fileName : String) : String :=
  let s := sanitizeCore fileName
  if s = "" ∨ s = "." ∨ s = ".." then "unnamed_file" else s

/-- The file name variant B computes before sanitising: `media.FileName`, or
the fallback `fmt.Sprintf("file_%d_%d%s", MessageID, FileID, ext)`. -/
def fileNameB (m : MediaInfo) : String :=
  if m.fileName = "" then
    "file_" ++ intDecimal m.messageID ++ "_" ++ intDecimal m.fileID ++
      getFileExtension m.mimeType
  else m.fileName

/-- `chatDir := filepath.Join(d.downloadPath, fmt.Sprintf("chat_%d", ChatID))`. -/
def chatDirB (root : GoPath.GPath) (m : MediaInfo) : GoPath.GPath :=
  GoPath.goJoinP root ⟨false, ["chat_" ++ intDecimal m.chatID]⟩

/-- `filePath := filepath.Join(chatDir, d.sanitizeFileName(fileName))`.  The
sanitised name is a single path component: sanitising removes every `/`
and `\`, so joining it cannot split it further. -/
def destPathB (root : GoPath.GPath) (m : MediaInfo) : GoPath.GPath :=
  GoPath.goJoinP (chatDirB root m) ⟨false, [sanitizeFileName (fileNameB m)]⟩

/-- `tempPath := filePath + ".tmp"`: the suffix attaches to the final
component (pool-produced paths always end in the file name). -/
def appendTmp : GoPath.GPath → GoPath.GPath
  | ⟨a, cs⟩ =>
    match cs.getLast? with
    | some l => ⟨a, cs.dropLast ++ [l ++ ".tmp"]⟩
    | none => ⟨a, [".tmp"]⟩

/-- The part of variant B's `Downloader.DownloadMedia` that runs after the
destination path is computed: `isSafePath` refusal, existence/skip check,
then either the registered download function or the placeholder branch with
its extra temp-path checks.  Returns the new state, whether the call
returned nil, and the number of download-function invocations. -/
def downloadAtPath (cwd root pathP : GoPath.GPath) (st : PoolState) (m : MediaInfo)
    (env : DlEnv) : PoolState × Bool × Nat :=
  if !(GoPath.isSafePath cwd pathP root) then
    ({ st with stats := updateStats st.stats false 0 }, false, 0)
  else
    let dest := GoPath.render pathP
    if st.fs.contains dest then
      ({ st with stats := { st.stats with skipped := st.stats.skipped + 1 } }, true, 0)
    else if env.hasFn then
      if env.fnOk then
        ({ stats := updateStats st.stats true m.fileSize, fs := dest :: st.fs }, true, 1)
      else ({ st with stats := updateStats st.stats false 0 }, false, 1)
    else
      let tempP := appendTmp pathP
      if !(GoPath.isSafePath cwd tempP root) then
        ({ st with stats := updateStats st.stats false 0 }, false, 0)
      else
        let ctp := GoPath.render (GoPath.goCleanP tempP)
        if goContains ctp ".." || !(strHasPre (GoPath.render (GoPath.goCleanP root)) ctp) then
          ({ st with stats := updateStats st.stats false 0 }, false, 0)
        else if env.createOk = false then
          ({ st with stats := updateStats st.stats false 0 }, false, 0)
        else if env.renameOk then
          ({ stats := updateStats st.stats true m.fileSize, fs := dest :: st.fs }, true, 0)
        else ({ st with stats := updateStats st.stats false 0 }, false, 0)

/-- Variant B's `Downloader.DownloadMedia`: `MkdirAll` on the chat directory,
name generation and sanitising, then `downloadAtPath`. -/
def DownloadMedia (cwd root : GoPath.GPath) (st : PoolState) (m : MediaInfo)
    (env : DlEnv) : PoolState × Bool × Nat :=
  if env.mkdirOk = false then
    ({ st with stats := updateStats st.stats false 0 }, false, 0)
  else downloadAtPath cwd root (destPathB root m) st m env

/-- Submitting the same descriptor `n` times in sequence.  Returns the final
state, the total number of download-function invocations, and whether every
submission returned nil. -/
def submitTimes (cwd root : GoPath.GPath) (m : MediaInfo) (env : DlEnv) :
    Nat → PoolState → PoolState × Nat × Bool
  | 0, st => (st, 0, true)
  | n + 1, st =>
    let r := DownloadMedia cwd root st m env
    let rest := submitTimes cwd root m env n r.1
    (rest.1, r.2.2 + rest.2.1, r.2.1 && rest.2.2)

end DownloaderB

/-! ## Helper lemmas -/

namespace Chunked

theorem chunkJobs_mem_iff (chunkSize size : Nat) (j : Nat × Nat) :
    j ∈ chunkJobs chunkSize size ↔
      ∃ i < numChunks chunkSize size,
        j = (i * chunkSize,
          if i * chunkSize + chunkSize > size then size - i * chunkSize
          else chunkSize) := by
  simp only [chunkJobs, List.mem_map, List.mem_range]
  constructor
  · rintro ⟨i, hi, rfl⟩
    exact ⟨i, hi, rfl⟩
  · rintro ⟨i, hi, rfl⟩
    exact ⟨i, hi, rfl⟩

theorem mul_lt_size_of_lt_numChunks {chunkSize size i : Nat}
    (hcs : 0 < chunkSize) (hi : i < numChunks chunkSize size) :
    i * chunkSize < size := by
  by_contra h
  push_neg at h
  have : numChunks chunkSize size ≤ i := by
    have hle : size + chunkSize - 1 ≤ i * chunkSize + chunkSize - 1 := by
      omega
    have hdiv : (size + chunkSize - 1) / chunkSize ≤
        (i * chunkSize + chunkSize - 1) / chunkSize := Nat.div_le_div_right hle
    have heq : (i * chunkSize + chunkSize - 1) / chunkSize = i := by
      have h1 : i * chunkSize + chunkSize - 1 = chunkSize * i + (chunkSize - 1) := by
        ring_nf
        omega
      rw [h1, Nat.mul_add_div hcs]
      have : (chunkSize - 1) / chunkSize = 0 := Nat.div_eq_of_lt (by omega)
      omega
    rw [heq] at hdiv
    exact hdiv
  omega

end Chunked

/-! ## Claim C1 -/

/-- Claim C1 counterexample.  The claim asserts that every
`fetch(offset, limit)` call issued by `DownloadToFile` has `limit` a
multiple of 1024.  With the default 512 KiB chunk size and `totalSize =
1500`, `sendChunkJobs` issues the single job `(0, 1500)` — the workers call
the caller-supplied fetch with `limit = 1500`, and `1500 % 1024 = 476 ≠ 0`:
`DownloadToFile` performs no internal rounding of the final chunk. -/
theorem c1_counterexample :
    ((0, 1500) : Nat × Nat) ∈ Chunked.chunkJobs 524288 1500 ∧
      ¬ ((1500 : Nat) % 1024 = 0) := by
  decide

/-- Claim C1, amended.  For a chunk size that is a positive multiple of 1024
and at most 524288 (the configuration always supplies `chunkSizeKiB * 1024`,
default 512 KiB), every job `(offset, limit)` handed to the caller-supplied
fetch satisfies: `offset % 1024 = 0`; `limit ≤ 524288`; and either the job is
a non-final full chunk, whose `limit = chunkSize` is a multiple of 1024, or
it is the final chunk with `offset + limit = totalSize`, whose `limit` is a
multiple of 1024 exactly when `totalSize` is. -/
theorem c1_chunk_alignment (chunkSize size : Nat)
    (h1 : chunkSize % 1024 = 0) (h2 : 0 < chunkSize)
    (h3 : chunkSize ≤ Chunked.maxAPILimit) :
    ∀ j ∈ Chunked.chunkJobs chunkSize size,
      j.1 % 1024 = 0 ∧ j.2 ≤ Chunked.maxAPILimit ∧
        ((j.2 = chunkSize ∧ j.2 % 1024 = 0) ∨
          (j.1 + j.2 = size ∧ (j.2 % 1024 = 0 ↔ size % 1024 = 0))) := by
  intro j hj
  rw [Chunked.chunkJobs_mem_iff] at hj
  obtain ⟨i, hi, rfl⟩ := hj
  have hlt : i * chunkSize < size := Chunked.mul_lt_size_of_lt_numChunks h2 hi
  have hoff : i * chunkSize % 1024 = 0 := by
    simp [Nat.mul_mod, h1]
  constructor
  · exact hoff
  constructor
  · simp only []
    split
    · omega
    · exact h3
  · simp only []
    split
    · right
      constructor
      · omega
      · omega
    · left
      exact ⟨rfl, h1⟩

/-- Claim C1 witness: the amended theorem applied to the default chunk size
524288 and `totalSize = 1500`, whose single job is `(0, 1500)`. -/
theorem c1_witness :
    (0 : Nat) % 1024 = 0 ∧ (1500 : Nat) ≤ Chunked.maxAPILimit ∧
      (((1500 : Nat) = 524288 ∧ (1500 : Nat) % 1024 = 0) ∨
        ((0 : Nat) + 1500 = 1500 ∧ ((1500 : Nat) % 1024 = 0 ↔ (1500 : Nat) % 1024 = 0))) :=
  c1_chunk_alignment 524288 1500 (by decide) (by decide) (by decide)
    (0, 1500) (by decide)

/-! ## Claim C2: helper lemmas on the trace model -/

namespace Chunked

theorem chunkEvents_forall (order : List (Nat × Nat)) :
    ∀ e ∈ chunkEvents order, isChunkEvent e = true := by
  induction order with
  | nil => intro e he; cases he
  | cons j rest ih =>
    intro e he
    simp only [chunkEvents, List.mem_cons] at he
    rcases he with rfl | rfl | he
    · rfl
    · rfl
    · exact ih e he

theorem finalizeAux_forall (fuel f : Nat) :
    ∀ e ∈ (finalizeAux fuel f).1,
      e = FileEvent.renameTemp ∨ e = FileEvent.sleepMs 500 ∨ e = FileEvent.removeTemp := by
  induction fuel generalizing f with
  | zero =>
    intro e he
    simp only [finalizeAux, List.mem_singleton] at he
    exact Or.inr (Or.inr he)
  | succ fuel ih =>
    intro e he
    match f with
    | 0 =>
      simp only [finalizeAux, List.mem_singleton] at he
      exact Or.inl he
    | f + 1 =>
      simp only [finalizeAux, List.mem_cons] at he
      rcases he with rfl | rfl | he
      · exact Or.inl rfl
      · exact Or.inr (Or.inl rfl)
      · exact ih f e he

theorem finalizeAux_head_rename (fuel f : Nat) (h : 0 < fuel) :
    ∃ rest, (finalizeAux fuel f).1 = FileEvent.renameTemp :: rest := by
  match fuel, f with
  | fuel + 1, 0 => exact ⟨[], rfl⟩
  | fuel + 1, f + 1 =>
    exact ⟨FileEvent.sleepMs 500 :: (finalizeAux fuel f).1, rfl⟩

theorem finalizeAux_rename_count (fuel f : Nat) :
    ((finalizeAux fuel f).1.filter isRenameEvent).length = min (f + 1) fuel := by
  induction fuel generalizing f with
  | zero => simp [finalizeAux, isRenameEvent]
  | succ fuel ih =>
    match f with
    | 0 => simp [finalizeAux, isRenameEvent]
    | f + 1 =>
      have hrec := ih f
      simp [finalizeAux, isRenameEvent, hrec]
      omega

theorem finalizeAux_sleep_count (fuel f : Nat) :
    ((finalizeAux fuel f).1.filter fun e => e == FileEvent.sleepMs 500).length = min f fuel := by
  induction fuel generalizing f with
  | zero => simp [finalizeAux]
  | succ fuel ih =>
    match f with
    | 0 => simp [finalizeAux]
    | f + 1 =>
      have hrec := ih f
      simp [finalizeAux, hrec]
      omega

theorem finalizeAux_flag (fuel f : Nat) :
    (finalizeAux fuel f).2 = decide (f < fuel) := by
  induction fuel generalizing f with
  | zero => simp [finalizeAux]
  | succ fuel ih =>
    match f with
    | 0 => simp [finalizeAux]
    | f + 1 =>
      simp only [finalizeAux, ih f]
      simp only [decide_eq_decide]
      omega

theorem finalizeAux_remove_mem (fuel f : Nat) :
    FileEvent.removeTemp ∈ (finalizeAux fuel f).1 ↔ fuel ≤ f := by
  induction fuel generalizing f with
  | zero => simp [finalizeAux]
  | succ fuel ih =>
    match f with
    | 0 => simp [finalizeAux]
    | f + 1 =>
      have hrec := ih f
      simp only [finalizeAux, List.mem_cons]
      simp only [reduceCtorEq, false_or]
      rw [hrec]
      omega

theorem finalizeAux_sync_not_mem (fuel f : Nat) :
    FileEvent.syncTemp ∉ (finalizeAux fuel f).1 := by
  intro h
  rcases finalizeAux_forall fuel f _ h with h' | h' | h' <;> cases h'

theorem chunkEvents_sync_not_mem (order : List (Nat × Nat)) :
    FileEvent.syncTemp ∉ chunkEvents order := by
  intro h
  have := chunkEvents_forall order _ h
  simp [isChunkEvent] at this

theorem chunkEvents_rename_not_mem (order : List (Nat × Nat)) :
    FileEvent.renameTemp ∉ chunkEvents order := by
  intro h
  have := chunkEvents_forall order _ h
  simp [isChunkEvent] at this

theorem chunkEvents_no_rename (order : List (Nat × Nat)) :
    (chunkEvents order).dropWhile (fun e => !isRenameEvent e) = [] := by
  rw [List.dropWhile_eq_nil_iff]
  intro e he
  have := chunkEvents_forall order e he
  cases e <;> simp_all [isChunkEvent, isRenameEvent]

theorem chunkEvents_filter_rename (order : List (Nat × Nat)) :
    (chunkEvents order).filter isRenameEvent = [] := by
  rw [List.filter_eq_nil_iff]
  intro e he
  have := chunkEvents_forall order e he
  cases e <;> simp_all [isChunkEvent, isRenameEvent]

theorem chunkEvents_filter_sleep (order : List (Nat × Nat)) :
    (chunkEvents order).filter (fun e => e == FileEvent.sleepMs 500) = [] := by
  rw [List.filter_eq_nil_iff]
  intro e he
  have := chunkEvents_forall order e he
  cases e <;> simp_all [isChunkEvent]

end Chunked

/-! ## Claim C2 -/

/-- Claim C2 counterexample.  The claim asserts that the rename happens after
an explicit flush+sync and close of the temp file.  On the concrete
single-chunk success run (order `[(0, 100)]`, rename succeeding at the first
attempt), the trace contains no sync at all, and the close is the last event
— strictly after the rename: the deferred `file.Close()` only runs when
`DownloadToFile` returns. -/
theorem c2_counterexample :
    Chunked.FileEvent.syncTemp ∉ (Chunked.downloadToFileTrace [(0, 100)] 0).1 ∧
      (Chunked.downloadToFileTrace [(0, 100)] 0).1 =
        [Chunked.FileEvent.mkDirAll, Chunked.FileEvent.createTemp,
         Chunked.FileEvent.truncateTemp, Chunked.FileEvent.fetchChunk 0 100,
         Chunked.FileEvent.writeChunk 0 100, Chunked.FileEvent.renameTemp,
         Chunked.FileEvent.closeTemp] := by
  decide

/-- Claim C2, amended.  In every success-path run of `DownloadToFile`
(arbitrary chunk completion order, `rf` failing rename attempts): the rename
happens strictly after every chunk fetch and write (no chunk event occurs at
or after the first rename event, and a rename event is present); no explicit
sync is performed; the rename is attempted at most 5 times
(`min (rf+1) 5` attempts) with a 500 ms sleep after each failure
(`min rf 5` sleeps); the temp file is closed only after the rename — the
deferred close is the final event; the run succeeds iff fewer than 5 attempts
fail, and on rename exhaustion the temp file is unlinked; on a chunk-failure
run the temp file is unlinked and no rename is ever attempted. -/
theorem c2_publish_order (order : List (Nat × Nat)) (rf : Nat) :
    (((Chunked.downloadToFileTrace order rf).1.dropWhile
        fun e => !Chunked.isRenameEvent e).all fun e => !Chunked.isChunkEvent e) = true ∧
    Chunked.FileEvent.renameTemp ∈ (Chunked.downloadToFileTrace order rf).1 ∧
    Chunked.FileEvent.syncTemp ∉ (Chunked.downloadToFileTrace order rf).1 ∧
    ((Chunked.downloadToFileTrace order rf).1.filter Chunked.isRenameEvent).length
      = min (rf + 1) Chunked.maxRenameRetries ∧
    ((Chunked.downloadToFileTrace order rf).1.filter
        fun e => e == Chunked.FileEvent.sleepMs 500).length = min rf Chunked.maxRenameRetries ∧
    (Chunked.downloadToFileTrace order rf).1.getLast? = some Chunked.FileEvent.closeTemp ∧
    ((Chunked.downloadToFileTrace order rf).2 = true ↔ rf < Chunked.maxRenameRetries) ∧
    (Chunked.FileEvent.removeTemp ∈ (Chunked.downloadToFileTrace order rf).1 ↔
      Chunked.maxRenameRetries ≤ rf) ∧
    ∀ completed fj,
      Chunked.FileEvent.removeTemp ∈ Chunked.downloadToFileChunkErrorTrace completed fj ∧
        Chunked.FileEvent.renameTemp ∉ Chunked.downloadToFileChunkErrorTrace completed fj := by
  obtain ⟨tail, htail⟩ :=
    Chunked.finalizeAux_head_rename Chunked.maxRenameRetries rf (by decide)
  have htr : (Chunked.downloadToFileTrace order rf).1 =
      [Chunked.FileEvent.mkDirAll, Chunked.FileEvent.createTemp,
        Chunked.FileEvent.truncateTemp] ++
      (Chunked.chunkEvents order ++
        ((Chunked.finalizeAux Chunked.maxRenameRetries rf).1 ++
          [Chunked.FileEvent.closeTemp])) := by
    simp [Chunked.downloadToFileTrace, Chunked.finalizeDownload]
  refine ⟨?_, ?_, ?_, ?_, ?_, ?_, ?_, ?_, ?_⟩
  · -- after the first rename no chunk event occurs
    rw [htr, List.dropWhile_append]
    have h1 : List.dropWhile (fun e => !Chunked.isRenameEvent e)
        [Chunked.FileEvent.mkDirAll, Chunked.FileEvent.createTemp,
         Chunked.FileEvent.truncateTemp] = [] := by decide
    rw [h1]
    simp only [List.isEmpty_nil, if_true]
    rw [List.dropWhile_append, Chunked.chunkEvents_no_rename order]
    simp only [List.isEmpty_nil, if_true]
    rw [List.all_eq_true]
    intro e he
    have hmem : e ∈ (Chunked.finalizeAux Chunked.maxRenameRetries rf).1 ++
        [Chunked.FileEvent.closeTemp] :=
      List.Sublist.mem he (List.dropWhile_sublist _)
    rw [List.mem_append] at hmem
    rcases hmem with hmem | hmem
    · rcases Chunked.finalizeAux_forall _ _ e hmem with rfl | rfl | rfl <;> decide
    · simp only [List.mem_singleton] at hmem
      subst hmem
      decide
  · -- a rename is present
    rw [htr]
    simp only [List.mem_append, htail]
    exact Or.inr (Or.inr (Or.inl (List.mem_cons_self _ _)))
  · -- no sync anywhere
    rw [htr]
    simp only [List.mem_append]
    intro h
    rcases h with h | h | h | h
    · simp at h
    · exact Chunked.chunkEvents_sync_not_mem order h
    · exact Chunked.finalizeAux_sync_not_mem _ _ h
    · simp at h
  · -- rename attempts
    rw [htr]
    simp only [List.filter_append, List.length_append]
    have h3 : List.filter Chunked.isRenameEvent
        [Chunked.FileEvent.mkDirAll, Chunked.FileEvent.createTemp,
         Chunked.FileEvent.truncateTemp] = [] := by decide
    have h4 : List.filter Chunked.isRenameEvent [Chunked.FileEvent.closeTemp] = [] := by
      decide
    rw [h3, h4, Chunked.chunkEvents_filter_rename order, Chunked.finalizeAux_rename_count]
    simp
  · -- sleeps between attempts
    rw [htr]
    simp only [List.filter_append, List.length_append]
    have h3 : List.filter (fun e => e == Chunked.FileEvent.sleepMs 500)
        [Chunked.FileEvent.mkDirAll, Chunked.FileEvent.createTemp,
         Chunked.FileEvent.truncateTemp] = [] := by decide
    have h4 : List.filter (fun e => e == Chunked.FileEvent.sleepMs 500)
        [Chunked.FileEvent.closeTemp] = [] := by decide
    rw [h3, h4, Chunked.chunkEvents_filter_sleep order, Chunked.finalizeAux_sleep_count]
    simp
  · -- the deferred close is the final event
    rw [htr]
    rw [show [Chunked.FileEvent.mkDirAll, Chunked.FileEvent.createTemp,
        Chunked.FileEvent.truncateTemp] ++
        (Chunked.chunkEvents order ++
          ((Chunked.finalizeAux Chunked.maxRenameRetries rf).1 ++
            [Chunked.FileEvent.closeTemp])) =
      ([Chunked.FileEvent.mkDirAll, Chunked.FileEvent.createTemp,
        Chunked.FileEvent.truncateTemp] ++ Chunked.chunkEvents order ++
        (Chunked.finalizeAux Chunked.maxRenameRetries rf).1) ++
        [Chunked.FileEvent.closeTemp] from by simp]
    exact List.getLast?_concat _
  · -- success iff fewer than 5 failures
    simp only [Chunked.downloadToFileTrace, Chunked.finalizeDownload]
    rw [Chunked.finalizeAux_flag]
    simp
  · -- temp unlinked exactly on rename exhaustion
    rw [htr]
    simp only [List.mem_append]
    constructor
    · intro h
      rcases h with h | h | h | h
      · simp at h
      · exfalso
        have := Chunked.chunkEvents_forall order _ h
        simp [Chunked.isChunkEvent] at this
      · exact (Chunked.finalizeAux_remove_mem _ _).mp h
      · simp at h
    · intro h
      exact Or.inr (Or.inr (Or.inl ((Chunked.finalizeAux_remove_mem _ _).mpr h)))
  · -- chunk-failure runs unlink the temp file and never rename
    intro completed fj
    constructor
    · simp [Chunked.downloadToFileChunkErrorTrace]
    · simp only [Chunked.downloadToFileChunkErrorTrace, List.mem_append]
      intro h
      rcases h with (h | h) | h
      · simp at h
      · exact Chunked.chunkEvents_rename_not_mem completed h
      · simp at h

/-- Claim C2 witness: the amended theorem at the single-chunk order
`[(0, 524288)]` with one failing rename attempt — no sync event occurs in
that concrete trace. -/
theorem c2_witness :
    Chunked.FileEvent.syncTemp ∉ (Chunked.downloadToFileTrace [(0, 524288)] 1).1 :=
  (c2_publish_order [(0, 524288)] 1).2.2.1

/-! ## Claim C3 -/

namespace Walker

theorem walkPages_pos (bs : Nat) (pages : List (List HMsg)) :
    1 ≤ (walkPages bs pages).1 := by
  match pages with
  | [] => simp [walkPages]
  | page :: rest =>
    simp only [walkPages]
    split
    · simp
    · split
      · simp
      · simp

end Walker

/-- Claim C3 counterexample.  The claim asserts the loop continues whenever a
batch returns exactly `batchSize` messages.  With `batchSize = 2` and a first
page of two messages of which only one carries media,
`DownloadHistoryMedia` stops after the first page request (`GetMediaMessages`
returns the extracted descriptors, and the loop compares *their* count — 1 —
against `batchSize`), even though the batch returned a full page of 2
messages and a second page exists. -/
theorem c3_counterexample :
    (Walker.walkPages 2
        [[⟨1, false⟩, ⟨2, true⟩], [⟨3, true⟩, ⟨4, true⟩]]).1 = 1 ∧
      ([⟨1, false⟩, ⟨2, true⟩] : List Walker.HMsg).length = 2 := by
  decide

/-- Claim C3, amended.  The backfill loop terminates exactly when the batch
yields fewer than `batchSize` *extracted media descriptors* (in particular
when it yields none); otherwise it requests the next page.  When every
message carries media this coincides with the claim: for a history served as
pages of 100, 100 and 37 all-media messages, the walker issues exactly three
page requests — no fourth — and processes 237 descriptors. -/
theorem c3_walker_termination (bs : Nat) (h : 0 < bs) :
    (∀ page rest,
      1 < (Walker.walkPages bs (page :: rest)).1 ↔ bs ≤ Walker.mediaCount page) ∧
    Walker.walkPages 100 [Walker.mkPage 100, Walker.mkPage 100, Walker.mkPage 37]
      = (3, 237) := by
  constructor
  · intro page rest
    simp only [Walker.walkPages]
    split
    · rename_i h0
      simp only [h0] at *
      constructor
      · intro hlt
        simp at hlt
      · intro hle
        omega
    · split
      · rename_i h0 hlt
        constructor
        · intro hcontra
          simp at hcontra
        · intro hle
          omega
      · rename_i h0 hlt
        constructor
        · intro _
          omega
        · intro _
          have := Walker.walkPages_pos bs rest
          simp
          omega
  · decide

/-- Claim C3 witness: the amended characterisation at `batchSize = 100` and a
single full all-media page — the walker does issue a second request. -/
theorem c3_witness :
    1 < (Walker.walkPages 100 [Walker.mkPage 100]).1 ↔
      100 ≤ Walker.mediaCount (Walker.mkPage 100) :=
  (c3_walker_termination 100 (by decide)).1 (Walker.mkPage 100) []

/-! ## Claim C4: helper lemmas on the flood-wait loop -/

namespace Middleware

theorem sleepsOf_append (a b : List Ev) :
    sleepsOf (a ++ b) = sleepsOf a ++ sleepsOf b := by
  simp [sleepsOf, List.filterMap_append]

theorem invokeCount_append (a b : List Ev) :
    invokeCount (a ++ b) = invokeCount a + invokeCount b := by
  simp [invokeCount, List.filter_append]

theorem floodLoop_sleeps_bounded (resps : Nat → Res) :
    ∀ fuel le attempt n w',
      w' ∈ sleepsOf (floodLoop (transport resps) fuel le attempt n).1 →
      minWaitNs ≤ w' ∧ w' ≤ maxWaitNs := by
  intro fuel
  induction fuel with
  | zero =>
    intro le attempt n w' hw'
    simp [floodLoop, sleepsOf] at hw'
  | succ fuel ih =>
    intro le attempt n w' hw'
    simp only [floodLoop, transport] at hw'
    split at hw'
    · simp [sleepsOf] at hw'
    · rename_i w heq
      split at hw'
      · simp [sleepsOf] at hw'
      · split at hw'
        · simp [sleepsOf] at hw'
        · rename_i hbig
          simp only [sleepsOf, List.filterMap_append, List.filterMap_cons] at hw'
          simp only [List.filterMap_nil] at hw'
          simp only [List.nil_append, List.cons_append, List.mem_cons,
            List.nil_append] at hw'
          rcases hw' with rfl | hw'
          · exact ⟨le_max_right _ _, by omega⟩
          · have := ih (Res.errFlood w) (attempt + 1) (n + 1) w'
            simp only [sleepsOf] at this
            exact this hw'
    · simp [sleepsOf] at hw'

theorem floodLoop_invoke_le (resps : Nat → Res) :
    ∀ fuel le attempt n,
      invokeCount (floodLoop (transport resps) fuel le attempt n).1 ≤ fuel := by
  intro fuel
  induction fuel with
  | zero =>
    intro le attempt n
    simp [floodLoop, invokeCount]
  | succ fuel ih =>
    intro le attempt n
    simp only [floodLoop, transport]
    split
    · simp [invokeCount]
    · rename_i w heq
      split
      · simp [invokeCount]
      · split
        · simp [invokeCount]
        · have := ih (Res.errFlood w) (attempt + 1) (n + 1)
          simp only [invokeCount] at this ⊢
          simp only [List.filter_append, List.filter_cons, List.length_append]
          simp
          omega
    · simp [invokeCount]

theorem floodLoop_const_flood (resps : Nat → Res) (w : Nat)
    (hresp : ∀ n, resps n = Res.errFlood w)
    (hw : max w minWaitNs ≤ maxWaitNs) :
    ∀ fuel attempt n le, attempt + fuel = floodMaxRetries + 1 → 0 < fuel →
      (floodLoop (transport resps) fuel le attempt n).2.1 = Res.errFloodLimit w ∧
      invokeCount (floodLoop (transport resps) fuel le attempt n).1 = fuel ∧
      (sleepsOf (floodLoop (transport resps) fuel le attempt n).1).length = fuel - 1 := by
  intro fuel
  induction fuel with
  | zero =>
    intro attempt n le hsum hpos
    omega
  | succ fuel ih =>
    intro attempt n le hsum hpos
    simp only [floodLoop, transport, hresp n]
    by_cases hfz : fuel = 0
    · subst hfz
      have hatt : floodMaxRetries ≤ attempt := by
        simp only [floodMaxRetries] at *
        omega
      rw [if_pos hatt]
      refine ⟨rfl, by simp [invokeCount], by simp [sleepsOf]⟩
    · have hatt : ¬ floodMaxRetries ≤ attempt := by
        simp only [floodMaxRetries] at *
        omega
      rw [if_neg hatt]
      rw [if_neg (by omega : ¬ maxWaitNs < max w minWaitNs)]
      obtain ⟨h1, h2, h3⟩ := ih (attempt + 1) (n + 1) (Res.errFlood w) (by omega) (by omega)
      refine ⟨h1, ?_, ?_⟩
      · simp only [invokeCount, List.filter_append, List.filter_cons,
          List.length_append]
        simp only [invokeCount] at h2
        simp only [List.filter_nil]
        simp
        omega
      · simp only [sleepsOf, List.filterMap_append, List.filterMap_cons,
          List.length_append]
        simp only [sleepsOf] at h3
        simp only [List.filterMap_nil]
        simp
        omega

end Middleware

/-- Claim C4.  Behaviour of the flood-wait middleware around the transport,
for every response sequence and starting invocation counter: a success or a
non-flood error of the first invocation is returned unchanged after exactly
one transport invocation and no sleep; a flood-wait whose clamped duration
(raised to the 1 s floor) exceeds the 5 min ceiling fails immediately with
the terminal too-long error, without sleeping; an admissible flood-wait is
followed by a sleep of exactly the clamped duration and a retry; every sleep
ever performed lies between the 1 s floor and the 5 min ceiling; at most
`maxRetries + 1 = 6` transport invocations occur; and under persistent
admissible flood-waits the middleware performs exactly 6 invocations and 5
sleeps and returns the terminal retry-limit error. -/
theorem c4_floodwait_policy (resps : Nat → Middleware.Res) (n0 : Nat) :
    (∀ c, resps n0 = Middleware.Res.errOther c →
      Middleware.floodWaitHandle (Middleware.transport resps) n0 =
        ([Middleware.Ev.invokeTransport n0], Middleware.Res.errOther c, n0 + 1)) ∧
    (resps n0 = Middleware.Res.ok →
      Middleware.floodWaitHandle (Middleware.transport resps) n0 =
        ([Middleware.Ev.invokeTransport n0], Middleware.Res.ok, n0 + 1)) ∧
    (∀ w, resps n0 = Middleware.Res.errFlood w →
      Middleware.maxWaitNs < max w Middleware.minWaitNs →
      Middleware.floodWaitHandle (Middleware.transport resps) n0 =
        ([Middleware.Ev.invokeTransport n0], Middleware.Res.errFloodTooLong w, n0 + 1)) ∧
    (∀ w, resps n0 = Middleware.Res.errFlood w →
      max w Middleware.minWaitNs ≤ Middleware.maxWaitNs →
      ∃ rest, (Middleware.floodWaitHandle (Middleware.transport resps) n0).1 =
        Middleware.Ev.invokeTransport n0 ::
          Middleware.Ev.sleepNs (max w Middleware.minWaitNs) :: rest) ∧
    (∀ w', w' ∈ Middleware.sleepsOf
        (Middleware.floodWaitHandle (Middleware.transport resps) n0).1 →
      Middleware.minWaitNs ≤ w' ∧ w' ≤ Middleware.maxWaitNs) ∧
    Middleware.invokeCount
        (Middleware.floodWaitHandle (Middleware.transport resps) n0).1 ≤
      Middleware.floodMaxRetries + 1 ∧
    (∀ w, (∀ n, resps n = Middleware.Res.errFlood w) →
      max w Middleware.minWaitNs ≤ Middleware.maxWaitNs →
      (Middleware.floodWaitHandle (Middleware.transport resps) n0).2.1 =
          Middleware.Res.errFloodLimit w ∧
        Middleware.invokeCount
            (Middleware.floodWaitHandle (Middleware.transport resps) n0).1 =
          Middleware.floodMaxRetries + 1 ∧
        (Middleware.sleepsOf
            (Middleware.floodWaitHandle (Middleware.transport resps) n0).1).length =
          Middleware.floodMaxRetries) := by
  refine ⟨?_, ?_, ?_, ?_, ?_, ?_, ?_⟩
  · intro c h
    simp [Middleware.floodWaitHandle, Middleware.floodLoop, Middleware.transport, h]
  · intro h
    simp [Middleware.floodWaitHandle, Middleware.floodLoop, Middleware.transport, h]
  · intro w h hbig
    simp only [Middleware.floodWaitHandle, Middleware.floodLoop, Middleware.transport, h]
    rw [if_neg (by simp [Middleware.floodMaxRetries])]
    rw [if_pos hbig]
  · intro w h hle
    simp only [Middleware.floodWaitHandle, Middleware.floodLoop, Middleware.transport, h]
    rw [if_neg (by simp [Middleware.floodMaxRetries])]
    rw [if_neg (by omega)]
    exact ⟨_, rfl⟩
  · intro w' hw'
    exact Middleware.floodLoop_sleeps_bounded resps _ _ _ _ _ hw'
  · exact Middleware.floodLoop_invoke_le resps _ _ _ _
  · intro w hresp hle
    exact Middleware.floodLoop_const_flood resps w hresp hle _ 0 n0 Middleware.Res.ok
      rfl (by omega)

/-- Claim C4 witness: a transport that always answers `FLOOD_WAIT 2s`
(2·10⁹ ns) makes the middleware sleep exactly the clamped 2 s and retry. -/
theorem c4_witness :
    ∃ rest,
      (Middleware.floodWaitHandle
          (Middleware.transport fun _ => Middleware.Res.errFlood 2000000000) 0).1 =
        Middleware.Ev.invokeTransport 0 ::
          Middleware.Ev.sleepNs (max 2000000000 Middleware.minWaitNs) :: rest :=
  (c4_floodwait_policy (fun _ => Middleware.Res.errFlood 2000000000) 0).2.2.2.1
    2000000000 rfl (by decide)

/-! ## Claim C5: helper lemma -/

namespace Middleware

theorem floodLoop_rate_paired (resps : Nat → Res) :
    ∀ fuel le attempt n,
      invokesPaired
          (floodLoop (rateLimitHandle (transport resps)) fuel le attempt n).1 = true ∧
        acquireCount
            (floodLoop (rateLimitHandle (transport resps)) fuel le attempt n).1 =
          invokeCount
            (floodLoop (rateLimitHandle (transport resps)) fuel le attempt n).1 := by
  intro fuel
  induction fuel with
  | zero =>
    intro le attempt n
    simp [floodLoop, invokesPaired, acquireCount, invokeCount]
  | succ fuel ih =>
    intro le attempt n
    simp only [floodLoop, rateLimitHandle, transport]
    split
    · simp [invokesPaired, acquireCount, invokeCount]
    · rename_i w heq
      split
      · simp [invokesPaired, acquireCount, invokeCount]
      · split
        · simp [invokesPaired, acquireCount, invokeCount]
        · obtain ⟨h1, h2⟩ := ih (Res.errFlood w) (attempt + 1) (n + 1)
          constructor
          · simp only [List.cons_append, List.nil_append]
            simp only [invokesPaired]
            exact h1
          · simp only [acquireCount, invokeCount, List.filter_append,
              List.filter_cons, List.length_append] at h2 ⊢
            simp at h2 ⊢
            omega
    · simp [invokesPaired, acquireCount, invokeCount]

end Middleware

/-! ## Claim C5 -/

/-- Claim C5 counterexample.  With a transport answering `FLOOD_WAIT 2s` to
the first invocation and success to the second, the stack composed in the
order the claim states — flood waiter adjacent to the transport, rate
limiter outside (`[Transport] ← FloodWaiter ← RateLimiter ← Caller`) —
performs two transport invocations but only one token acquisition, so under
that order the claim's own consequence (each invocation, including the
flood-wait retry, is preceded by a token acquisition) fails; the stack the
source actually assembles (`Middlewares = [floodWaiter, rateLimiter]` with
gotd chaining first-is-outermost) acquires a token twice and its trace
differs from the claimed-order trace. -/
theorem c5_counterexample :
    Middleware.invokeCount
        ((Middleware.claimedOrderInvoker
          (fun n => if n = 0 then Middleware.Res.errFlood 2000000000
            else Middleware.Res.ok) 0).1) = 2 ∧
    Middleware.acquireCount
        ((Middleware.claimedOrderInvoker
          (fun n => if n = 0 then Middleware.Res.errFlood 2000000000
            else Middleware.Res.ok) 0).1) = 1 ∧
    Middleware.acquireCount
        ((Middleware.assembledInvoker
          (fun n => if n = 0 then Middleware.Res.errFlood 2000000000
            else Middleware.Res.ok) 0).1) = 2 ∧
    (Middleware.claimedOrderInvoker
        (fun n => if n = 0 then Middleware.Res.errFlood 2000000000
          else Middleware.Res.ok) 0).1 ≠
      (Middleware.assembledInvoker
        (fun n => if n = 0 then Middleware.Res.errFlood 2000000000
          else Middleware.Res.ok) 0).1 := by
  decide

/-- Claim C5, amended.  The assembled middleware chain orders the stack from
the transport outward as `[Transport] ← RateLimiter ← FloodWaiter ← Caller`
(the flood waiter is the outermost wrapper: `Middlewares = [floodWaiter,
rateLimiter]` and gotd chains the first middleware outermost), with the
claimed consequence intact: in every run, each transport invocation —
including every flood-wait retry — is immediately preceded by exactly one
rate-limit token acquisition. -/
theorem c5_stack_order (resps : Nat → Middleware.Res) (n0 : Nat) :
    Middleware.assembledInvoker resps n0 =
      Middleware.floodWaitHandle
        (Middleware.rateLimitHandle (Middleware.transport resps)) n0 ∧
    Middleware.invokesPaired (Middleware.assembledInvoker resps n0).1 = true ∧
    Middleware.acquireCount (Middleware.assembledInvoker resps n0).1 =
      Middleware.invokeCount (Middleware.assembledInvoker resps n0).1 := by
  refine ⟨rfl, ?_, ?_⟩
  · exact (Middleware.floodLoop_rate_paired resps _ _ 0 n0).1
  · exact (Middleware.floodLoop_rate_paired resps _ _ 0 n0).2

/-- Claim C5 witness: the paired-acquisition consequence on the concrete
always-succeeding transport. -/
theorem c5_witness :
    Middleware.invokesPaired
        ((Middleware.assembledInvoker (fun _ => Middleware.Res.ok) 0).1) = true :=
  (c5_stack_order (fun _ => Middleware.Res.ok) 0).2.1

/-! ## Claim C6: helper lemmas -/

theorem listIsInfixOf_iff (p l : List Char) :
    listIsInfixOf p l = true ↔ p <:+: l := by
  induction l with
  | nil =>
    simp [listIsInfixOf, List.isPrefixOf_iff_prefix, List.prefix_nil, List.infix_nil]
  | cons c rest ih =>
    simp only [listIsInfixOf, Bool.or_eq_true, List.isPrefixOf_iff_prefix, ih,
      List.infix_cons_iff]

theorem goContains_iff (s sub : String) :
    goContains s sub = true ↔ sub.data <:+: s.data := by
  simp [goContains, listIsInfixOf_iff]

theorem defaultShouldRetry_some (s : String) :
    Retry.DefaultShouldRetry (some s) =
      (goContains s "connection" || goContains s "timeout" ||
        goContains s "network" || goContains s "temporary" ||
        goContains s "INTERNAL_SERVER_ERROR" || goContains s "NETWORK_MIGRATE" ||
        goContains s "PHONE_MIGRATE" || goContains s "FILE_MIGRATE" ||
        goContains s "USER_MIGRATE" || goContains s "STATS_MIGRATE") := by
  simp only [Retry.DefaultShouldRetry]
  split_ifs with h1 h2 <;> simp_all

/-! ## Claim C6 -/

/-- Claim C6.  The default retry classifier returns `true` exactly for a
non-nil error whose message contains at least one of the ten sentinel
substrings; and a first-attempt error it classifies as non-retryable is
returned by `Retrier.Do` unchanged after a single invocation of the
operation (no retry). -/
theorem c6_default_classifier (err : Option String) :
    (Retry.DefaultShouldRetry err = true ↔
      ∃ e, err = some e ∧
        ∃ sub ∈ Retry.retryableSentinels, sub.data <:+: e.data) ∧
    (∀ e, err = some e → Retry.DefaultShouldRetry err = false →
      Retry.retrierDo (fun x => Retry.DefaultShouldRetry (some x)) (fun _ => err) 3 =
        (Retry.DoOutcome.passthrough e, 1)) := by
  constructor
  · rcases err with _ | s
    · simp [Retry.DefaultShouldRetry]
    · rw [defaultShouldRetry_some]
      simp only [Bool.or_eq_true, goContains_iff]
      simp only [Retry.retryableSentinels, List.mem_cons, List.not_mem_nil, or_false,
        exists_eq_or_imp, exists_eq_left, Option.some.injEq, exists_eq_left']
      tauto
  · intro e he hnot
    subst he
    simp only [Retry.retrierDo, Retry.doAux, hnot]
    simp

/-- Claim C6 witness: the error message `"FLOOD_WAIT (420)"` contains no
sentinel, is classified non-retryable, and passes through `Do` after one
attempt. -/
theorem c6_witness :
    Retry.retrierDo (fun x => Retry.DefaultShouldRetry (some x))
        (fun _ => some "FLOOD_WAIT (420)") 3 =
      (Retry.DoOutcome.passthrough "FLOOD_WAIT (420)", 1) :=
  (c6_default_classifier (some "FLOOD_WAIT (420)")).2 "FLOOD_WAIT (420)" rfl (by decide)

/-! ## Claim C9: helper lemmas on `replaceAll` and `hasDotDot` -/

theorem replaceAllAux_fuel_irrel (p r : List Char) :
    ∀ n (l : List Char), l.length ≤ n → ∀ fuel1 fuel2,
      l.length ≤ fuel1 → l.length ≤ fuel2 →
      replaceAllAux p r fuel1 l = replaceAllAux p r fuel2 l := by
  intro n
  induction n with
  | zero =>
    intro l hl fuel1 fuel2 h1 h2
    have : l = [] := by
      cases l
      · rfl
      · simp at hl
    subst this
    cases fuel1 <;> cases fuel2 <;> rfl
  | succ n ih =>
    intro l hl fuel1 fuel2 h1 h2
    cases l with
    | nil => cases fuel1 <;> cases fuel2 <;> rfl
    | cons c rest =>
      simp only [List.length_cons] at hl h1 h2
      match fuel1, fuel2, h1, h2 with
      | f1 + 1, f2 + 1, h1, h2 =>
        show (if p.isPrefixOf (c :: rest) = true then
            r ++ replaceAllAux p r f1 (List.drop (p.length - 1) rest)
          else c :: replaceAllAux p r f1 rest) =
          (if p.isPrefixOf (c :: rest) = true then
            r ++ replaceAllAux p r f2 (List.drop (p.length - 1) rest)
          else c :: replaceAllAux p r f2 rest)
        have hd : (List.drop (p.length - 1) rest).length ≤ rest.length := by
          rw [List.length_drop]
          omega
        by_cases hp : p.isPrefixOf (c :: rest) = true
        · rw [if_pos hp, if_pos hp]
          rw [ih _ (by omega : (List.drop (p.length - 1) rest).length ≤ n)
            f1 f2 (by omega) (by omega)]
        · rw [if_neg hp, if_neg hp]
          rw [ih rest (by omega) f1 f2 (by omega) (by omega)]

theorem replaceAllAux_eq (p r : List Char) (fuel : Nat) (l : List Char)
    (hl : l.length ≤ fuel) : replaceAllAux p r fuel l = replaceAll p r l :=
  replaceAllAux_fuel_irrel p r l.length l (le_refl _) fuel l.length hl (le_refl _)

theorem replaceAll_nil (p r : List Char) : replaceAll p r [] = [] := rfl

theorem replaceAll_cons (p r : List Char) (c : Char) (rest : List Char) :
    replaceAll p r (c :: rest) =
      if p.isPrefixOf (c :: rest) = true then
        r ++ replaceAll p r (List.drop (p.length - 1) rest)
      else c :: replaceAll p r rest := by
  have hstep : replaceAll p r (c :: rest) =
      (if p.isPrefixOf (c :: rest) = true then
        r ++ replaceAllAux p r rest.length (List.drop (p.length - 1) rest)
      else c :: replaceAllAux p r rest.length rest) := rfl
  rw [hstep]
  have hd : (List.drop (p.length - 1) rest).length ≤ rest.length := by
    rw [List.length_drop]
    omega
  rw [replaceAllAux_eq p r rest.length _ hd,
    replaceAllAux_eq p r rest.length rest (le_refl _)]

theorem replaceAll_single (x u : Char) (l : List Char) :
    replaceAll [x] [u] l = l.map fun c => if c = x then u else c := by
  induction l with
  | nil => simp [replaceAll_nil]
  | cons c rest ih =>
    rw [replaceAll_cons]
    by_cases hc : c = x
    · subst hc
      rw [if_pos (by simp [List.isPrefixOf])]
      simp [ih]
    · rw [if_neg (by simp [List.isPrefixOf]; exact fun h => hc h.symm)]
      simp [ih, hc]

theorem hasDotDot_map (f : Char → Char) (hf : ∀ c, f c = '.' ↔ c = '.')
    (l : List Char) : hasDotDot (l.map f) = hasDotDot l := by
  induction l with
  | nil => simp [hasDotDot]
  | cons a rest ih =>
    cases rest with
    | nil => simp [hasDotDot]
    | cons b rest2 =>
      simp only [List.map_cons] at ih ⊢
      rw [hasDotDot, hasDotDot, ih]
      have ha : decide (f a = '.') = decide (a = '.') := by simp [hf]
      have hb : decide (f b = '.') = decide (b = '.') := by simp [hf]
      rw [ha, hb]

theorem dotdot_isPrefixOf_cons (a : Char) (l : List Char) :
    ['.', '.'].isPrefixOf (a :: l) = true ↔ a = '.' ∧ l.head? = some '.' := by
  cases l with
  | nil =>
    constructor
    · intro h
      simp [List.isPrefixOf] at h
    · rintro ⟨h1, h2⟩
      simp at h2
  | cons b rest =>
    constructor
    · intro h
      simp [List.isPrefixOf] at h
      exact ⟨h.1.symm, by simp [h.2.symm]⟩
    · rintro ⟨h1, h2⟩
      simp at h2
      simp [List.isPrefixOf, h1, h2]

theorem hasDotDot_cons_false (a : Char) (l : List Char)
    (h : hasDotDot (a :: l) = false) : hasDotDot l = false := by
  cases l with
  | nil => rfl
  | cons b rest =>
    rw [hasDotDot] at h
    simp only [Bool.or_eq_false_iff] at h
    exact h.2

theorem replaceAll_dd_no_dotdot :
    ∀ n (l : List Char), l.length ≤ n →
      hasDotDot (replaceAll ['.', '.'] ['_'] l) = false ∧
        ((replaceAll ['.', '.'] ['_'] l).head? = some '.' → l.head? = some '.') := by
  intro n
  induction n with
  | zero =>
    intro l hl
    have : l = [] := by
      cases l
      · rfl
      · simp at hl
    subst this
    simp [replaceAll_nil, hasDotDot]
  | succ n ih =>
    intro l hl
    cases l with
    | nil => simp [replaceAll_nil, hasDotDot]
    | cons c rest =>
      rw [replaceAll_cons]
      simp only [show (['.', '.'] : List Char).length - 1 = 1 from rfl]
      by_cases hp : ['.', '.'].isPrefixOf (c :: rest) = true
      · rw [if_pos hp]
        have hlen : (List.drop 1 rest).length ≤ n := by
          rw [List.length_drop]
          simp only [List.length_cons] at hl
          omega
        obtain ⟨h1, _⟩ := ih (List.drop 1 rest) hlen
        constructor
        · cases hres : replaceAll ['.', '.'] ['_'] (List.drop 1 rest) with
          | nil => simp [hres, hasDotDot]
          | cons d rest2 =>
            rw [hres] at h1
            simp only [List.cons_append, List.nil_append, hres]
            rw [hasDotDot, h1]
            simp
        · intro hcontra
          simp at hcontra
      · rw [if_neg hp]
        have hlen : rest.length ≤ n := by
          simp only [List.length_cons] at hl
          omega
        obtain ⟨h1, h2⟩ := ih rest hlen
        constructor
        · cases hres : replaceAll ['.', '.'] ['_'] rest with
          | nil => simp [hres, hasDotDot]
          | cons d rest2 =>
            rw [hres] at h1
            rw [hasDotDot, h1]
            simp only [Bool.or_false]
            by_cases hc : c = '.'
            · subst hc
              have hd : ¬ d = '.' := by
                intro hd
                subst hd
                have hh : rest.head? = some '.' := by
                  have := h2
                  rw [hres] at this
                  exact this rfl
                rw [dotdot_isPrefixOf_cons] at hp
                exact hp ⟨rfl, hh⟩
              simp [hd]
            · simp [hc]
        · intro hhead
          cases hres : replaceAll ['.', '.'] ['_'] rest with
          | nil =>
            rw [hres] at hhead
            simp at hhead
            simp [hhead]
          | cons d rest2 =>
            rw [hres] at hhead
            simp at hhead
            simp [hhead]

theorem replaceAll_dd_eq_self (l : List Char) (h : hasDotDot l = false) :
    replaceAll ['.', '.'] ['_'] l = l := by
  induction l with
  | nil => exact replaceAll_nil _ _
  | cons c rest ih =>
    rw [replaceAll_cons]
    have hp : ¬ ['.', '.'].isPrefixOf (c :: rest) = true := by
      intro hp
      rw [dotdot_isPrefixOf_cons] at hp
      obtain ⟨hc, hh⟩ := hp
      subst hc
      cases rest with
      | nil => simp at hh
      | cons b rest2 =>
        simp at hh
        subst hh
        rw [hasDotDot] at h
        simp at h
    rw [if_neg hp]
    rw [ih (hasDotDot_cons_false c rest h)]

theorem map_replace_eq_self (x u : Char) (l : List Char) (h : x ∉ l) :
    (l.map fun c => if c = x then u else c) = l := by
  induction l with
  | nil => rfl
  | cons c rest ih =>
    simp only [List.mem_cons, not_or] at h
    simp only [List.map_cons]
    rw [if_neg (fun hc => h.1 hc.symm)]
    rw [ih h.2]

theorem not_mem_map_replace (x u : Char) (hxu : x ≠ u) (l : List Char) :
    x ∉ l.map fun c => if c = x then u else c := by
  intro hmem
  rw [List.mem_map] at hmem
  obtain ⟨c, _, hc⟩ := hmem
  by_cases h : c = x
  · rw [if_pos h] at hc
    exact hxu hc.symm
  · rw [if_neg h] at hc
    exact h hc

theorem not_mem_map_preserve (x u y : Char) (hyu : y ≠ u) (l : List Char)
    (h : y ∉ l) : y ∉ l.map fun c => if c = x then u else c := by
  intro hmem
  rw [List.mem_map] at hmem
  obtain ⟨c, hcl, hc⟩ := hmem
  by_cases hcx : c = x
  · rw [if_pos hcx] at hc
    exact hyu hc.symm
  · rw [if_neg hcx] at hc
    exact h (hc ▸ hcl)

theorem mem_replaceAll (p r : List Char) :
    ∀ n (l : List Char), l.length ≤ n →
      ∀ c ∈ replaceAll p r l, c ∈ l ∨ c ∈ r := by
  intro n
  induction n with
  | zero =>
    intro l hl c hc
    have : l = [] := by
      cases l
      · rfl
      · simp at hl
    subst this
    simp [replaceAll_nil] at hc
  | succ n ih =>
    intro l hl c hc
    cases l with
    | nil => simp [replaceAll_nil] at hc
    | cons a rest =>
      rw [replaceAll_cons] at hc
      by_cases hp : p.isPrefixOf (a :: rest) = true
      · rw [if_pos hp] at hc
        rw [List.mem_append] at hc
        rcases hc with hc | hc
        · exact Or.inr hc
        · have hlen : (List.drop (p.length - 1) rest).length ≤ n := by
            rw [List.length_drop]
            simp only [List.length_cons] at hl
            omega
          rcases ih _ hlen c hc with hin | hin
          · exact Or.inl (List.mem_cons_of_mem a (List.drop_subset _ _ hin))
          · exact Or.inr hin
      · rw [if_neg hp] at hc
        rcases List.mem_cons.mp hc with rfl | hc
        · exact Or.inl (List.mem_cons_self _ _)
        · have hlen : rest.length ≤ n := by
            simp only [List.length_cons] at hl
            omega
          rcases ih rest hlen c hc with hin | hin
          · exact Or.inl (List.mem_cons_of_mem a hin)
          · exact Or.inr hin

theorem mem_map_replace_inv (x u c : Char) (l : List Char)
    (h : c ∈ l.map fun d => if d = x then u else d) : c = u ∨ (c ∈ l ∧ c ≠ x) := by
  rw [List.mem_map] at h
  obtain ⟨d, hdl, hd⟩ := h
  by_cases hdx : d = x
  · rw [if_pos hdx] at hd
    exact Or.inl hd.symm
  · rw [if_neg hdx] at hd
    subst hd
    exact Or.inr ⟨hdl, hdx⟩

theorem hasDotDot_map_step (x : Char) (hx : x ≠ '.') (l : List Char) :
    hasDotDot (l.map fun c => if c = x then '_' else c) = hasDotDot l := by
  apply hasDotDot_map
  intro c
  by_cases hc : c = x
  · subst hc
    simp [hx]
  · simp [hc]

theorem goReplaceAll_data (s old new : String) :
    (goReplaceAll s old new).data = replaceAll old.data new.data s.data := rfl

theorem data_slash : ("/" : String).data = ['/'] := rfl

theorem data_backslash : ("\\" : String).data = ['\\'] := rfl

theorem data_dotdot : (".." : String).data = ['.', '.'] := rfl

theorem data_colon : (":" : String).data = [':'] := rfl

theorem data_star : ("*" : String).data = ['*'] := rfl

theorem data_question : ("?" : String).data = ['?'] := rfl

theorem data_quote : ("\"" : String).data = ['"'] := rfl

theorem data_lt : ("<" : String).data = ['<'] := rfl

theorem data_gt : (">" : String).data = ['>'] := rfl

theorem data_pipe : ("|" : String).data = ['|'] := rfl

theorem data_underscore : ("_" : String).data = ['_'] := rfl

theorem sanitizeCore_clean (s : String) :
    (∀ c ∈ (DownloaderB.sanitizeCore s).data, c ∉ DownloaderB.bannedChars) ∧
      hasDotDot (DownloaderB.sanitizeCore s).data = false := by
  simp only [DownloaderB.sanitizeCore, goReplaceAll_data, data_slash, data_backslash,
    data_dotdot, data_colon, data_star, data_question, data_quote, data_lt, data_gt,
    data_pipe, data_underscore]
  simp only [replaceAll_single]
  constructor
  · intro c hc
    rcases mem_map_replace_inv _ _ _ _ hc with rfl | ⟨hc, h9⟩
    · decide
    rcases mem_map_replace_inv _ _ _ _ hc with rfl | ⟨hc, h8⟩
    · decide
    rcases mem_map_replace_inv _ _ _ _ hc with rfl | ⟨hc, h7⟩
    · decide
    rcases mem_map_replace_inv _ _ _ _ hc with rfl | ⟨hc, h6⟩
    · decide
    rcases mem_map_replace_inv _ _ _ _ hc with rfl | ⟨hc, h5⟩
    · decide
    rcases mem_map_replace_inv _ _ _ _ hc with rfl | ⟨hc, h4⟩
    · decide
    rcases mem_map_replace_inv _ _ _ _ hc with rfl | ⟨hc, h3⟩
    · decide
    rcases mem_replaceAll ['.', '.'] ['_'] _ _ (le_refl _) c hc with hc | hu
    · rcases mem_map_replace_inv _ _ _ _ hc with rfl | ⟨hc, h2⟩
      · decide
      rcases mem_map_replace_inv _ _ _ _ hc with rfl | ⟨hc, h1⟩
      · decide
      simp only [DownloaderB.bannedChars, List.mem_cons, List.not_mem_nil, or_false]
      intro hor
      rcases hor with rfl | rfl | rfl | rfl | rfl | rfl | rfl | rfl | rfl
      · exact h1 rfl
      · exact h2 rfl
      · exact h3 rfl
      · exact h4 rfl
      · exact h5 rfl
      · exact h6 rfl
      · exact h7 rfl
      · exact h8 rfl
      · exact h9 rfl
    · simp only [List.mem_singleton] at hu
      subst hu
      decide
  · rw [hasDotDot_map_step '|' (by decide), hasDotDot_map_step '>' (by decide),
      hasDotDot_map_step '<' (by decide), hasDotDot_map_step '"' (by decide),
      hasDotDot_map_step '?' (by decide), hasDotDot_map_step '*' (by decide),
      hasDotDot_map_step ':' (by decide)]
    exact (replaceAll_dd_no_dotdot _ _ (le_refl _)).1

theorem sanitizeCore_eq_self (t : String)
    (hb : ∀ c ∈ t.data, c ∉ DownloaderB.bannedChars) (hd : hasDotDot t.data = false) :
    DownloaderB.sanitizeCore t = t := by
  have hmem : ∀ x ∈ DownloaderB.bannedChars, x ∉ t.data := by
    intro x hx hmemx
    exact hb x hmemx hx
  apply String.ext
  simp only [DownloaderB.sanitizeCore, goReplaceAll_data, data_slash, data_backslash,
    data_dotdot, data_colon, data_star, data_question, data_quote, data_lt, data_gt,
    data_pipe, data_underscore]
  simp only [replaceAll_single]
  rw [map_replace_eq_self '/' '_' t.data (hmem '/' (by decide))]
  rw [map_replace_eq_self '\\' '_' t.data (hmem '\\' (by decide))]
  rw [replaceAll_dd_eq_self t.data hd]
  rw [map_replace_eq_self ':' '_' t.data (hmem ':' (by decide))]
  rw [map_replace_eq_self '*' '_' t.data (hmem '*' (by decide))]
  rw [map_replace_eq_self '?' '_' t.data (hmem '?' (by decide))]
  rw [map_replace_eq_self '"' '_' t.data (hmem '"' (by decide))]
  rw [map_replace_eq_self '<' '_' t.data (hmem '<' (by decide))]
  rw [map_replace_eq_self '>' '_' t.data (hmem '>' (by decide))]
  rw [map_replace_eq_self '|' '_' t.data (hmem '|' (by decide))]

/-! ## Claim C9 -/

/-- Claim C9 counterexample.  The claim asserts `sanitize` maps `".."` to
`"unnamed_file"`.  It does not: the `".."`→`"_"` replacement runs first, so
the fallback check sees `"_"` and returns it — the `".."` arm of the
fallback is unreachable. -/
theorem c9_counterexample :
    DownloaderB.sanitizeFileName ".." = "_" ∧
      DownloaderB.sanitizeFileName ".." ≠ "unnamed_file" := by
  constructor
  · rfl
  · decide

/-- Claim C9, amended.  The sanitizer is idempotent; it maps `""` and `"."`
to `"unnamed_file"` but maps `".."` to `"_"` (the replacement chain runs
before the fallback check); and every output is free of the nine dangerous
characters and of the `".."` sequence. -/
theorem c9_sanitizer :
    (∀ s : String, DownloaderB.sanitizeFileName (DownloaderB.sanitizeFileName s) =
      DownloaderB.sanitizeFileName s) ∧
    DownloaderB.sanitizeFileName "" = "unnamed_file" ∧
    DownloaderB.sanitizeFileName "." = "unnamed_file" ∧
    DownloaderB.sanitizeFileName ".." = "_" ∧
    (∀ s : String, (∀ c ∈ (DownloaderB.sanitizeFileName s).data,
        c ∉ DownloaderB.bannedChars) ∧
      hasDotDot (DownloaderB.sanitizeFileName s).data = false) := by
  have hout : ∀ s : String,
      DownloaderB.sanitizeFileName s = "unnamed_file" ∨
        DownloaderB.sanitizeFileName s = DownloaderB.sanitizeCore s ∧
          ¬ (DownloaderB.sanitizeCore s = "" ∨ DownloaderB.sanitizeCore s = "." ∨
            DownloaderB.sanitizeCore s = "..") := by
    intro s
    simp only [DownloaderB.sanitizeFileName]
    by_cases h : DownloaderB.sanitizeCore s = "" ∨ DownloaderB.sanitizeCore s = "." ∨
        DownloaderB.sanitizeCore s = ".."
    · rw [if_pos h]
      exact Or.inl rfl
    · rw [if_neg h]
      exact Or.inr ⟨rfl, h⟩
  refine ⟨?_, rfl, rfl, rfl, ?_⟩
  · intro s
    rcases hout s with h | ⟨h, hcond⟩
    · rw [h]
      decide
    · rw [h]
      have hcore : DownloaderB.sanitizeCore (DownloaderB.sanitizeCore s) =
          DownloaderB.sanitizeCore s :=
        sanitizeCore_eq_self _ (sanitizeCore_clean s).1 (sanitizeCore_clean s).2
      simp only [DownloaderB.sanitizeFileName, hcore]
      rw [if_neg hcond]
  · intro s
    rcases hout s with h | ⟨h, _⟩
    · rw [h]
      exact ⟨by decide, by decide⟩
    · rw [h]
      exact sanitizeCore_clean s

/-- Claim C9 witness: idempotence at the concrete input `"a/b:c"`. -/
theorem c9_witness :
    DownloaderB.sanitizeFileName (DownloaderB.sanitizeFileName "a/b:c") =
      DownloaderB.sanitizeFileName "a/b:c" :=
  c9_sanitizer.1 "a/b:c"

/-! ## Claim C8: helper lemmas on the path model -/

namespace GoPath

theorem cleanAux_append (a : Bool) (xs ys : List String) :
    ∀ st, cleanAux a st (xs ++ ys) = cleanAux a (cleanAux a st xs) ys := by
  induction xs with
  | nil =>
    intro st
    rfl
  | cons c rest ih =>
    intro st
    rw [List.cons_append, cleanAux, cleanAux]
    by_cases h1 : c = "" ∨ c = "."
    · rw [if_pos h1, if_pos h1, ih]
    · rw [if_neg h1, if_neg h1]
      by_cases h2 : c = ".."
      · rw [if_pos h2, if_pos h2]
        by_cases h3 : st ≠ [] ∧ st.getLast? ≠ some ".."
        · rw [if_pos h3, if_pos h3]
          exact ih _
        · rw [if_neg h3, if_neg h3]
          cases a
          · rw [if_neg (by decide), if_neg (by decide)]
            exact ih _
          · rw [if_pos rfl, if_pos rfl]
            exact ih _
      · rw [if_neg h2, if_neg h2]
        exact ih _

theorem cleanAux_all_normal (a : Bool) (ys : List String)
    (hn : ∀ c ∈ ys, isNormalComp c = true) :
    ∀ st, cleanAux a st ys = st ++ ys := by
  induction ys with
  | nil =>
    intro st
    simp [cleanAux]
  | cons c rest ih =>
    intro st
    have hc := hn c (List.mem_cons_self _ _)
    simp only [isNormalComp, Bool.and_eq_true, Bool.not_eq_true'] at hc
    obtain ⟨⟨hc1, hc2⟩, hc3⟩ := hc
    rw [cleanAux]
    rw [if_neg (by simp [decide_eq_false_iff_not] at hc1 hc2; tauto)]
    rw [if_neg (by simp [decide_eq_false_iff_not] at hc3; exact hc3)]
    rw [ih (fun d hd => hn d (List.mem_cons_of_mem _ hd)) (st ++ [c])]
    simp

end GoPath

namespace GoPath

theorem getLast?_mem' {α : Type} : ∀ (l : List α) (x : α), l.getLast? = some x → x ∈ l := by
  intro l
  induction l with
  | nil =>
    intro x h
    simp at h
  | cons a rest ih =>
    intro x h
    cases rest with
    | nil =>
      simp at h
      simp [h]
    | cons b r2 =>
      rw [List.getLast?_cons_cons] at h
      exact List.mem_cons_of_mem _ (ih x h)

theorem exists_getLast?_of_ne_nil {α : Type} (l : List α) (h : l ≠ []) :
    ∃ x, l.getLast? = some x := by
  cases hg : l.getLast? with
  | none => exact absurd (List.getLast?_eq_none_iff.mp hg) h
  | some x => exact ⟨x, rfl⟩

theorem isNormalComp_iff (c : String) :
    isNormalComp c = true ↔ c ≠ "" ∧ c ≠ "." ∧ c ≠ ".." := by
  simp [isNormalComp, Bool.and_eq_true, decide_eq_false_iff_not]
  tauto

theorem shape_getLast_normal {k : Nat} {ns : List String}
    (hns : ∀ c ∈ ns, isNormalComp c = true) (hne : ns ≠ []) :
    (List.replicate k ".." ++ ns).getLast? = ns.getLast? ∧
      ∀ l, ns.getLast? = some l → l ≠ ".." := by
  constructor
  · rw [List.getLast?_append]
    obtain ⟨x, hx⟩ := exists_getLast?_of_ne_nil ns hne
    rw [hx]
    rfl
  · intro l hl
    have := hns l (getLast?_mem' ns l hl)
    rw [isNormalComp_iff] at this
    exact this.2.2

theorem cleanShape_cleanAux (a : Bool) (xs : List String) :
    ∀ st, cleanShape a st → cleanShape a (cleanAux a st xs) := by
  induction xs with
  | nil =>
    intro st h
    exact h
  | cons c rest ih =>
    intro st hst
    rw [cleanAux]
    by_cases h1 : c = "" ∨ c = "."
    · rw [if_pos h1]
      exact ih st hst
    · rw [if_neg h1]
      by_cases h2 : c = ".."
      · rw [if_pos h2]
        obtain ⟨k, ns, rfl, hns, hk⟩ := hst
        by_cases h3 : List.replicate k ".." ++ ns ≠ [] ∧
            (List.replicate k ".." ++ ns).getLast? ≠ some ".."
        · rw [if_pos h3]
          have hne : ns ≠ [] := by
            intro hn
            subst hn
            simp only [List.append_nil] at h3
            rcases Nat.eq_zero_or_pos k with rfl | hkpos
            · exact h3.1 rfl
            · refine h3.2 ?_
              rw [List.getLast?_replicate]
              simp
              omega
          apply ih
          rw [List.dropLast_append_of_ne_nil _ hne]
          exact ⟨k, ns.dropLast, rfl,
            fun d hd => hns d (List.dropLast_subset ns hd), hk⟩
        · by_cases ha : a = true
          · rw [if_neg h3, if_pos ha]
            exact ih _ ⟨k, ns, rfl, hns, hk⟩
          · rw [if_neg h3, if_neg ha]
            have hns0 : ns = [] := by
              by_contra hne
              obtain ⟨hl1, hl2⟩ := shape_getLast_normal hns hne
              refine h3 ⟨?_, ?_⟩
              · intro hnil
                exact hne (by simpa using List.append_eq_nil.mp hnil |>.2)
              · rw [hl1]
                intro hcon
                exact hl2 ".." hcon rfl
            subst hns0
            apply ih
            refine ⟨k + 1, [], ?_, by simp, fun h => absurd h ha⟩
            rw [List.append_nil, List.append_nil, ← List.replicate_succ' k ".."]
      · rw [if_neg h2]
        obtain ⟨k, ns, rfl, hns, hk⟩ := hst
        apply ih
        refine ⟨k, ns ++ [c], by rw [List.append_assoc], ?_, hk⟩
        intro d hd
        rcases List.mem_append.mp hd with hd | hd
        · exact hns d hd
        · simp only [List.mem_singleton] at hd
          subst hd
          rw [isNormalComp_iff]
          exact ⟨fun h => h1 (Or.inl h), fun h => h1 (Or.inr h), h2⟩

end GoPath

namespace GoPath

theorem cleanAux_rel_replicate :
    ∀ (k j : Nat), cleanAux false (List.replicate j "..") (List.replicate k "..") =
      List.replicate (j + k) ".." := by
  intro k
  induction k with
  | zero =>
    intro j
    simp [cleanAux]
  | succ k ih =>
    intro j
    rw [List.replicate_succ, cleanAux]
    rw [if_neg (by simp)]
    rw [if_pos rfl]
    have hcond : ¬ (List.replicate j ".." ≠ [] ∧
        (List.replicate j "..").getLast? ≠ some "..") := by
      intro ⟨hne, hlast⟩
      rcases Nat.eq_zero_or_pos j with rfl | hj
      · exact hne rfl
      · refine hlast ?_
        rw [List.getLast?_replicate]
        simp
        omega
    rw [if_neg hcond, if_neg (by decide)]
    rw [show List.replicate j ".." ++ [".."] = List.replicate (j + 1) ".." from
      (List.replicate_succ' j "..").symm ▸ rfl]
    rw [ih (j + 1)]
    congr 1
    omega

theorem cleanAux_of_cleanShape (a : Bool) (ys : List String) (h : cleanShape a ys) :
    cleanAux a [] ys = ys := by
  obtain ⟨k, ns, rfl, hns, hk⟩ := h
  cases a with
  | true =>
    rw [hk rfl]
    simp only [List.replicate_zero, List.nil_append]
    rw [cleanAux_all_normal true ns hns []]
    rfl
  | false =>
    rw [cleanAux_append]
    have h0 : cleanAux false [] (List.replicate k "..") = List.replicate k ".." := by
      have := cleanAux_rel_replicate k 0
      simpa using this
    rw [h0, cleanAux_all_normal false ns hns]

end GoPath

namespace GoPath

theorem iterate_dropLast_nil {α : Type} (k : Nat) :
    List.dropLast^[k] ([] : List α) = [] := by
  induction k with
  | zero => rfl
  | succ k ih =>
    rw [Function.iterate_succ_apply]
    simpa using ih

theorem iterate_dropLast_subset {α : Type} (k : Nat) (l : List α) :
    List.dropLast^[k] l ⊆ l := by
  induction k generalizing l with
  | zero => simp
  | succ k ih =>
    rw [Function.iterate_succ_apply]
    exact fun x hx => List.dropLast_subset l (ih l.dropLast hx)

theorem cleanAux_abs_shape :
    ∀ (k : Nat) (st ns : List String),
      (∀ c ∈ st, isNormalComp c = true) → (∀ c ∈ ns, isNormalComp c = true) →
      cleanAux true st (List.replicate k ".." ++ ns) = List.dropLast^[k] st ++ ns := by
  intro k
  induction k with
  | zero =>
    intro st ns hst hns
    simpa using cleanAux_all_normal true ns hns st
  | succ k ih =>
    intro st ns hst hns
    rw [List.replicate_succ, List.cons_append, cleanAux]
    rw [if_neg (by simp), if_pos rfl]
    by_cases hst0 : st = []
    · subst hst0
      rw [if_neg (by simp), if_pos rfl]
      rw [ih [] ns (by simp) hns]
      rw [iterate_dropLast_nil, iterate_dropLast_nil]
    · obtain ⟨l, hl⟩ := exists_getLast?_of_ne_nil st hst0
      have hlnormal := hst l (getLast?_mem' st l hl)
      rw [isNormalComp_iff] at hlnormal
      rw [if_pos ⟨hst0, by rw [hl]; intro hc; exact hlnormal.2.2 (by injection hc)⟩]
      rw [ih st.dropLast ns (fun c hc => hst c (List.dropLast_subset st hc)) hns]
      rw [Function.iterate_succ_apply]

theorem cleanAux_rel_abs (xs : List String) :
    ∀ (st t : List String), (∀ c ∈ st, isNormalComp c = true) →
      cleanShape false t →
      cleanAux true st (cleanAux false t xs) =
        cleanAux true (cleanAux true st t) xs := by
  induction xs with
  | nil =>
    intro st t hst hshape
    rfl
  | cons c rest ih =>
    intro st t hst hshape
    obtain ⟨k, ns, rfl, hns, -⟩ := hshape
    have habs : cleanAux true st (List.replicate k ".." ++ ns) =
        List.dropLast^[k] st ++ ns := cleanAux_abs_shape k st ns hst hns
    by_cases h1 : c = "" ∨ c = "."
    · -- both cleans skip the component
      have hL : cleanAux false (List.replicate k ".." ++ ns) (c :: rest) =
          cleanAux false (List.replicate k ".." ++ ns) rest := by
        rw [cleanAux, if_pos h1]
      have hR : cleanAux true (cleanAux true st (List.replicate k ".." ++ ns))
          (c :: rest) =
          cleanAux true (cleanAux true st (List.replicate k ".." ++ ns)) rest := by
        rw [cleanAux, if_pos h1]
      rw [hL, hR]
      exact ih st _ hst ⟨k, ns, rfl, hns, by simp⟩
    · by_cases h2 : c = ".."
      · subst h2
        by_cases h3 : List.replicate k ".." ++ ns ≠ [] ∧
            (List.replicate k ".." ++ ns).getLast? ≠ some ".."
        · -- backtrack into the last normal component on both sides
          have hne : ns ≠ [] := by
            intro hn
            subst hn
            simp only [List.append_nil] at h3
            rcases Nat.eq_zero_or_pos k with rfl | hkpos
            · exact h3.1 rfl
            · refine h3.2 ?_
              rw [List.getLast?_replicate]
              simp
              omega
          obtain ⟨l, hl⟩ := exists_getLast?_of_ne_nil ns hne
          have hlnormal := hns l (getLast?_mem' ns l hl)
          rw [isNormalComp_iff] at hlnormal
          have hL : cleanAux false (List.replicate k ".." ++ ns) (".." :: rest) =
              cleanAux false (List.replicate k ".." ++ ns.dropLast) rest := by
            rw [cleanAux, if_neg (by simp), if_pos rfl, if_pos h3,
              List.dropLast_append_of_ne_nil _ hne]
          have hcond : List.dropLast^[k] st ++ ns ≠ [] ∧
              (List.dropLast^[k] st ++ ns).getLast? ≠ some ".." := by
            constructor
            · simp [hne]
            · rw [List.getLast?_append, hl]
              intro hc
              exact hlnormal.2.2 (by injection hc)
          have hR : cleanAux true (cleanAux true st (List.replicate k ".." ++ ns))
              (".." :: rest) =
              cleanAux true (List.dropLast^[k] st ++ ns.dropLast) rest := by
            rw [habs, cleanAux, if_neg (by simp), if_pos rfl, if_pos hcond,
              List.dropLast_append_of_ne_nil _ hne]
          rw [hL, hR]
          rw [ih st _ hst ⟨k, ns.dropLast, rfl,
            fun d hd => hns d (List.dropLast_subset ns hd), by simp⟩]
          rw [cleanAux_abs_shape k st ns.dropLast hst
            (fun d hd => hns d (List.dropLast_subset ns hd))]
        · -- the relative clean records another ".."; the absolute side pops
          have hns0 : ns = [] := by
            by_contra hne
            obtain ⟨hl1, hl2⟩ := shape_getLast_normal hns hne
            obtain ⟨l, hl⟩ := exists_getLast?_of_ne_nil ns hne
            refine h3 ⟨?_, ?_⟩
            · intro hnil
              exact hne (by simpa using List.append_eq_nil.mp hnil |>.2)
            · rw [hl1, hl]
              intro hc
              exact hl2 l hl (by injection hc)
          subst hns0
          have hL : cleanAux false (List.replicate k ".." ++ []) (".." :: rest) =
              cleanAux false (List.replicate (k + 1) ".." ++ []) rest := by
            rw [cleanAux, if_neg (by simp), if_pos rfl, if_neg h3, if_neg (by decide)]
            rw [List.append_nil, List.append_nil,
              show List.replicate k ".." ++ [".."] = List.replicate (k + 1) ".." from
                (List.replicate_succ' k "..").symm]
          rw [hL]
          rw [ih st _ hst ⟨k + 1, [], rfl, by simp, by simp⟩]
          have habs1 : cleanAux true st (List.replicate (k + 1) ".." ++ []) =
              List.dropLast^[k + 1] st ++ [] :=
            cleanAux_abs_shape (k + 1) st [] hst (by simp)
          rw [habs1, habs]
          simp only [List.append_nil]
          -- remaining: the one-step ".." on the absolute stack
          have hRstep : cleanAux true (List.dropLast^[k] st) (".." :: rest) =
              cleanAux true (List.dropLast^[k + 1] st) rest := by
            rw [cleanAux, if_neg (by simp), if_pos rfl]
            by_cases hS : List.dropLast^[k] st = []
            · rw [if_neg (by simp [hS]), if_pos rfl]
              rw [Function.iterate_succ_apply', hS]
              rfl
            · obtain ⟨l, hl⟩ := exists_getLast?_of_ne_nil _ hS
              have hlnormal := hst l (iterate_dropLast_subset k st (getLast?_mem' _ l hl))
              rw [isNormalComp_iff] at hlnormal
              rw [if_pos ⟨hS, by rw [hl]; intro hc; exact hlnormal.2.2 (by injection hc)⟩]
              rw [Function.iterate_succ_apply']
          rw [hRstep]
      · -- a normal component is emitted on both sides
        have hcn : isNormalComp c = true := by
          rw [isNormalComp_iff]
          exact ⟨fun h => h1 (Or.inl h), fun h => h1 (Or.inr h), h2⟩
        have hnsc : ∀ d ∈ ns ++ [c], isNormalComp d = true := by
          intro d hd
          rcases List.mem_append.mp hd with hd | hd
          · exact hns d hd
          · simp only [List.mem_singleton] at hd
            subst hd
            exact hcn
        have hL : cleanAux false (List.replicate k ".." ++ ns) (c :: rest) =
            cleanAux false (List.replicate k ".." ++ (ns ++ [c])) rest := by
          rw [cleanAux, if_neg h1, if_neg h2, List.append_assoc]
        have hR : cleanAux true (cleanAux true st (List.replicate k ".." ++ ns))
            (c :: rest) =
            cleanAux true (List.dropLast^[k] st ++ ns ++ [c]) rest := by
          rw [habs, cleanAux, if_neg h1, if_neg h2]
        rw [hL, hR]
        rw [ih st _ hst ⟨k, ns ++ [c], rfl, hnsc, by simp⟩]
        rw [cleanAux_abs_shape k st (ns ++ [c]) hst hnsc]
        rw [List.append_assoc]

end GoPath

theorem digitChar_mem (m : Nat) :
    digitChar m ∈ ['0', '1', '2', '3', '4', '5', '6', '7', '8', '9'] := by
  unfold digitChar
  split_ifs <;> simp

theorem natDigitsAux_chars :
    ∀ fuel n c, c ∈ natDigitsAux fuel n →
      c ∈ ['0', '1', '2', '3', '4', '5', '6', '7', '8', '9'] := by
  intro fuel
  induction fuel with
  | zero =>
    intro n c hc
    simp only [natDigitsAux, List.mem_singleton] at hc
    subst hc
    exact digitChar_mem _
  | succ fuel ih =>
    intro n c hc
    simp only [natDigitsAux] at hc
    split at hc
    · simp only [List.mem_singleton] at hc
      subst hc
      exact digitChar_mem _
    · rcases List.mem_append.mp hc with h | h
      · exact ih _ c h
      · simp only [List.mem_singleton] at h
        subst h
        exact digitChar_mem _

theorem intDecimal_chars (i : Int) :
    ∀ c ∈ (intDecimal i).data,
      c ∈ ['-', '0', '1', '2', '3', '4', '5', '6', '7', '8', '9'] := by
  intro c hc
  unfold intDecimal at hc
  split at hc
  · rw [String.data_append] at hc
    rcases List.mem_append.mp hc with h | h
    · simp only [show ("-" : String).data = ['-'] from rfl, List.mem_singleton] at h
      simp [h]
    · have := natDigitsAux_chars _ _ c h
      simp only [List.mem_cons] at this ⊢
      tauto
  · have := natDigitsAux_chars _ _ c hc
    simp only [List.mem_cons] at this ⊢
    tauto

theorem chatComp_data (i : Int) :
    ("chat_" ++ intDecimal i).data = 'c' :: 'h' :: 'a' :: 't' :: '_' :: (intDecimal i).data := by
  rw [String.data_append]
  rfl

theorem chatComp_normal (i : Int) :
    GoPath.isNormalComp ("chat_" ++ intDecimal i) = true := by
  rw [GoPath.isNormalComp_iff]
  refine ⟨?_, ?_, ?_⟩ <;>
    · intro h
      rw [String.ext_iff, chatComp_data] at h
      simp at h

theorem chatComp_no_slash (i : Int) : '/' ∉ ("chat_" ++ intDecimal i).data := by
  rw [chatComp_data]
  intro h
  simp only [List.mem_cons] at h
  rcases h with h | h | h | h | h | h
  · exact absurd h (by decide)
  · exact absurd h (by decide)
  · exact absurd h (by decide)
  · exact absurd h (by decide)
  · exact absurd h (by decide)
  · have := intDecimal_chars i '/' h
    simp at this

theorem listIsInfixOf_false_of_not_mem (ch : Char) (p l : List Char)
    (hp : ch ∈ p) (hl : ch ∉ l) : listIsInfixOf p l = false := by
  induction l with
  | nil =>
    cases p with
    | nil => cases hp
    | cons q qs => rfl
  | cons a rest ih =>
    rw [listIsInfixOf]
    have h1 : p.isPrefixOf (a :: rest) = false := by
      by_contra hcon
      rw [Bool.not_eq_false, List.isPrefixOf_iff_prefix] at hcon
      exact hl (hcon.subset hp)
    rw [h1]
    simp only [Bool.false_or]
    exact ih fun hm => hl (List.mem_cons_of_mem _ hm)

theorem no_slash_dotdot (A B : List Char) (hA : '/' ∉ A) (hB : '/' ∉ B)
    (hBp : ['.', '.'].isPrefixOf B = false) :
    listIsInfixOf ['/', '.', '.'] (A ++ '/' :: B) = false := by
  induction A with
  | nil =>
    rw [List.nil_append, listIsInfixOf]
    have h1 : (['/', '.', '.'] : List Char).isPrefixOf ('/' :: B) = false := by
      simp only [List.isPrefixOf, beq_self_eq_true, Bool.true_and]
      exact hBp
    rw [h1]
    simp only [Bool.false_or]
    exact listIsInfixOf_false_of_not_mem '/' _ _ (by decide) hB
  | cons a A' ih =>
    simp only [List.mem_cons, not_or] at hA
    rw [List.cons_append, listIsInfixOf]
    have h1 : (['/', '.', '.'] : List Char).isPrefixOf (a :: (A' ++ '/' :: B)) = false := by
      simp only [List.isPrefixOf]
      have : ('/' == a) = false := by
        simp only [beq_eq_false_iff_ne, ne_eq]
        exact fun h => hA.1 h
      rw [this]
      rfl
    rw [h1]
    simp only [Bool.false_or]
    exact ih hA.2

theorem dotdot_not_prefixOf (l : List Char) (h : hasDotDot l = false) :
    ['.', '.'].isPrefixOf l = false := by
  cases l with
  | nil => rfl
  | cons a rest =>
    by_contra hcon
    rw [Bool.not_eq_false, dotdot_isPrefixOf_cons] at hcon
    obtain ⟨rfl, hh⟩ := hcon
    cases rest with
    | nil => simp at hh
    | cons b r2 =>
      simp only [List.head?_cons, Option.some.injEq] at hh
      subst hh
      rw [hasDotDot] at h
      simp at h

theorem sanitizeFileName_props (s : String) :
    GoPath.isNormalComp (DownloaderB.sanitizeFileName s) = true ∧
      '/' ∉ (DownloaderB.sanitizeFileName s).data ∧
      hasDotDot (DownloaderB.sanitizeFileName s).data = false := by
  simp only [DownloaderB.sanitizeFileName]
  by_cases h : DownloaderB.sanitizeCore s = "" ∨ DownloaderB.sanitizeCore s = "." ∨
      DownloaderB.sanitizeCore s = ".."
  · rw [if_pos h]
    refine ⟨by decide, by decide, by decide⟩
  · rw [if_neg h]
    push_neg at h
    refine ⟨?_, ?_, (sanitizeCore_clean s).2⟩
    · rw [GoPath.isNormalComp_iff]
      exact h
    · intro hmem
      exact (sanitizeCore_clean s).1 '/' hmem (by decide)

namespace GoPath

theorem cleanComps_cleanShape (a : Bool) (cs : List String) :
    cleanShape a (cleanComps a cs) :=
  cleanShape_cleanAux a cs [] ⟨0, [], by simp, by simp, fun _ => rfl⟩

theorem cleanAux_nil_cleanComps (a : Bool) (cs : List String) :
    cleanAux a [] (cleanComps a cs) = cleanComps a cs :=
  cleanAux_of_cleanShape a _ (cleanComps_cleanShape a cs)

theorem renderComps_append2 (a b : String) :
    ∀ (xs : List String), xs ≠ [] →
      renderComps (xs ++ [a, b]) = renderComps xs ++ "/" ++ (a ++ "/" ++ b) := by
  intro xs
  induction xs with
  | nil => intro h; cases h rfl
  | cons x rest ih =>
    intro _
    cases rest with
    | nil =>
      show renderComps [x, a, b] = renderComps [x] ++ "/" ++ (a ++ "/" ++ b)
      simp [renderComps, String.append_assoc]
    | cons y t =>
      rw [show (x :: y :: t) ++ [a, b] = x :: ((y :: t) ++ [a, b]) from rfl]
      rw [show renderComps (x :: ((y :: t) ++ [a, b])) =
          x ++ "/" ++ renderComps ((y :: t) ++ [a, b]) from by
        cases t <;> rfl]
      rw [ih (by simp)]
      rw [show renderComps (x :: y :: t) = x ++ "/" ++ renderComps (y :: t) from rfl]
      simp [String.append_assoc]

theorem dropCommon_self_append :
    ∀ (xs ys : List String), dropCommon xs (xs ++ ys) = ([], ys) := by
  intro xs
  induction xs with
  | nil =>
    intro ys
    cases ys <;> rfl
  | cons x rest ih =>
    intro ys
    rw [List.cons_append, dropCommon]
    rw [if_pos rfl]
    exact ih ys

end GoPath

namespace GoPath

theorem cleanAux_join2 (a : Bool) (cs : List String) (x y : String)
    (hx : isNormalComp x = true) (hy : isNormalComp y = true) :
    cleanAux a [] (cleanAux a [] (cs ++ [x]) ++ [y]) = cleanAux a [] cs ++ [x, y] := by
  have hxs : ∀ c ∈ [x], isNormalComp c = true := by
    intro c hc
    simp only [List.mem_singleton] at hc
    rw [hc]
    exact hx
  have hxy : ∀ c ∈ [x, y], isNormalComp c = true := by
    intro c hc
    simp only [List.mem_cons, List.not_mem_nil, or_false] at hc
    rcases hc with rfl | rfl
    · exact hx
    · exact hy
  have h1 : cleanAux a [] (cs ++ [x]) = cleanAux a [] cs ++ [x] := by
    rw [cleanAux_append, cleanAux_all_normal _ _ hxs]
  have h2 : cleanAux a [] (cleanAux a [] cs) = cleanAux a [] cs :=
    cleanAux_of_cleanShape _ _
      (cleanShape_cleanAux _ _ [] ⟨0, [], by simp, by simp, fun _ => rfl⟩)
  rw [h1, List.append_assoc, cleanAux_append, h2, List.singleton_append,
    cleanAux_all_normal _ _ hxy]

end GoPath

theorem destPathB_comps (root : GoPath.GPath) (m : MediaInfo) :
    DownloaderB.destPathB root m =
      ⟨root.absolute,
        GoPath.cleanComps root.absolute root.comps ++
          ["chat_" ++ intDecimal m.chatID,
           DownloaderB.sanitizeFileName (DownloaderB.fileNameB m)]⟩ := by
  simp only [DownloaderB.destPathB, DownloaderB.chatDirB, GoPath.goJoinP, GoPath.goCleanP,
    GoPath.cleanComps, GoPath.GPath.mk.injEq]
  exact ⟨trivial, GoPath.cleanAux_join2 root.absolute root.comps _ _
    (chatComp_normal m.chatID) (sanitizeFileName_props (DownloaderB.fileNameB m)).1⟩

namespace GoPath

theorem goAbsP_join2 (cwd root : GPath) (x y : String) (hcwd : cleanCwd cwd)
    (hx : isNormalComp x = true) (hy : isNormalComp y = true) :
    goAbsP cwd ⟨root.absolute, cleanComps root.absolute root.comps ++ [x, y]⟩ =
      ⟨true, (goAbsP cwd root).comps ++ [x, y]⟩ := by
  have hxy : ∀ c ∈ [x, y], isNormalComp c = true := by
    intro c hc
    simp only [List.mem_cons, List.not_mem_nil, or_false] at hc
    rcases hc with rfl | rfl
    · exact hx
    · exact hy
  have hcwdn : cleanAux true [] cwd.comps = cwd.comps := by
    have h := cleanAux_all_normal true cwd.comps hcwd.2 []
    simpa using h
  cases hr : root.absolute with
  | false =>
    simp only [goAbsP, goCleanP, cleanComps, hr, Bool.false_eq_true, if_false,
      GPath.mk.injEq, true_and]
    rw [← List.append_assoc, cleanAux_append, cleanAux_all_normal _ _ hxy,
      cleanAux_append, hcwdn]
    rw [cleanAux_rel_abs root.comps cwd.comps [] hcwd.2
      ⟨0, [], by simp, by simp, by simp⟩]
    rw [show cleanAux true cwd.comps [] = cwd.comps from rfl]
    rw [cleanAux_append, hcwdn]
  | true =>
    simp only [goAbsP, goCleanP, cleanComps, hr, if_true, GPath.mk.injEq, true_and]
    rw [cleanAux_append]
    rw [cleanAux_of_cleanShape _ _
      (cleanShape_cleanAux _ _ [] ⟨0, [], by simp, by simp, fun _ => rfl⟩)]
    rw [cleanAux_all_normal _ _ hxy]

end GoPath

theorem goAbsP_destPathB (cwd root : GoPath.GPath) (m : MediaInfo)
    (hcwd : GoPath.cleanCwd cwd) :
    GoPath.goAbsP cwd (DownloaderB.destPathB root m) =
      ⟨true, (GoPath.goAbsP cwd root).comps ++
        ["chat_" ++ intDecimal m.chatID,
         DownloaderB.sanitizeFileName (DownloaderB.fileNameB m)]⟩ := by
  rw [destPathB_comps]
  exact GoPath.goAbsP_join2 cwd root _ _ hcwd (chatComp_normal m.chatID)
    (sanitizeFileName_props (DownloaderB.fileNameB m)).1

theorem goAbsP_absolute (cwd p : GoPath.GPath) : (GoPath.goAbsP cwd p).absolute = true := by
  cases hp : p.absolute <;> simp [GoPath.goAbsP, GoPath.goCleanP, hp]

theorem chatName_rel_checks (i : Int) (nm : String) (hn1 : '/' ∉ nm.data)
    (hn2 : hasDotDot nm.data = false) :
    strHasPre ".." ("chat_" ++ intDecimal i ++ "/" ++ nm) = false ∧
      goContains ("chat_" ++ intDecimal i ++ "/" ++ nm) "/.." = false := by
  have hdata : ("chat_" ++ intDecimal i ++ "/" ++ nm).data =
      ("chat_" ++ intDecimal i).data ++ '/' :: nm.data := by
    rw [String.data_append, String.data_append]
    simp
  constructor
  · unfold strHasPre
    rw [hdata, chatComp_data]
    simp only [List.cons_append]
    by_contra hcon
    rw [Bool.not_eq_false] at hcon
    rw [dotdot_isPrefixOf_cons] at hcon
    exact absurd hcon.1 (by decide)
  · unfold goContains
    rw [hdata]
    rw [show ("/.." : String).data = ['/', '.', '.'] from rfl]
    exact no_slash_dotdot _ _ (chatComp_no_slash i) hn1 (dotdot_not_prefixOf _ hn2)

theorem isSafePath_destPathB (cwd root : GoPath.GPath) (m : MediaInfo)
    (hcwd : GoPath.cleanCwd cwd) :
    GoPath.isSafePath cwd (DownloaderB.destPathB root m) root = true := by
  have hchecks := chatName_rel_checks m.chatID
    (DownloaderB.sanitizeFileName (DownloaderB.fileNameB m))
    (sanitizeFileName_props (DownloaderB.fileNameB m)).2.1
    (sanitizeFileName_props (DownloaderB.fileNameB m)).2.2
  unfold GoPath.isSafePath
  rw [goAbsP_destPathB cwd root m hcwd]
  simp only [GoPath.goRelComps, GoPath.dropCommon_self_append, List.length_nil,
    List.replicate_zero, List.nil_append, GoPath.renderRel, GoPath.renderComps]
  rw [if_neg (by simp)]
  rw [hchecks.1, hchecks.2]
  rfl

/-- Claim C8.  For every destination path produced by the hardened pool — for
any file name, mime type, message id, file id and chat id in the submitted
`MediaInfo` — given a well-formed working directory and a non-root download
directory: (1) the absolute form of the destination is the absolute download
root followed by a separator and a relative remainder; (2) `isSafePath`
accepts it; and (3) any path that fails `isSafePath` is refused: `Failed` is
incremented, the file system is untouched, the call returns an error and the
download function is never invoked. -/
theorem c8_path_safety (cwd root : GoPath.GPath) (hcwd : GoPath.cleanCwd cwd)
    (hroot : (GoPath.goAbsP cwd root).comps ≠ []) (m : MediaInfo) :
    (∃ rest, GoPath.render (GoPath.goAbsP cwd (DownloaderB.destPathB root m)) =
        GoPath.render (GoPath.goAbsP cwd root) ++ "/" ++ rest) ∧
      GoPath.isSafePath cwd (DownloaderB.destPathB root m) root = true ∧
      ∀ (p : GoPath.GPath) (st : PoolState) (env : DlEnv),
        GoPath.isSafePath cwd p root = false →
          (DownloaderB.downloadAtPath cwd root p st m env).1.stats.failed =
              st.stats.failed + 1 ∧
            (DownloaderB.downloadAtPath cwd root p st m env).1.fs = st.fs ∧
            (DownloaderB.downloadAtPath cwd root p st m env).2 = (false, 0) := by
  refine ⟨?_, isSafePath_destPathB cwd root m hcwd, ?_⟩
  · refine ⟨"chat_" ++ intDecimal m.chatID ++ "/" ++
      DownloaderB.sanitizeFileName (DownloaderB.fileNameB m), ?_⟩
    rw [goAbsP_destPathB cwd root m hcwd]
    simp only [GoPath.render, goAbsP_absolute cwd root, if_true]
    rw [GoPath.renderComps_append2 _ _ _ hroot]
    simp [String.append_assoc]
  · intro p st env h
    simp [DownloaderB.downloadAtPath, h, updateStats]

/-- Claim C8 witness: the theorem applied to the working directory
`/home/user`, the relative download root `downloads`, and a concrete media
descriptor; the hypotheses are discharged by computation. -/
theorem c8_witness :
    GoPath.cleanCwd ⟨true, ["home", "user"]⟩ ∧
      (GoPath.goAbsP ⟨true, ["home", "user"]⟩ ⟨false, ["downloads"]⟩).comps ≠ [] ∧
      ((∃ rest, GoPath.render (GoPath.goAbsP ⟨true, ["home", "user"]⟩
            (DownloaderB.destPathB ⟨false, ["downloads"]⟩
              ⟨1, 2, "report.pdf", 10, "application/pdf", 77⟩)) =
          GoPath.render (GoPath.goAbsP ⟨true, ["home", "user"]⟩ ⟨false, ["downloads"]⟩) ++
            "/" ++ rest) ∧
        GoPath.isSafePath ⟨true, ["home", "user"]⟩
            (DownloaderB.destPathB ⟨false, ["downloads"]⟩
              ⟨1, 2, "report.pdf", 10, "application/pdf", 77⟩)
            ⟨false, ["downloads"]⟩ = true ∧
        ∀ (p : GoPath.GPath) (st : PoolState) (env : DlEnv),
          GoPath.isSafePath ⟨true, ["home", "user"]⟩ p ⟨false, ["downloads"]⟩ = false →
            (DownloaderB.downloadAtPath ⟨true, ["home", "user"]⟩ ⟨false, ["downloads"]⟩
                p st ⟨1, 2, "report.pdf", 10, "application/pdf", 77⟩ env).1.stats.failed =
                st.stats.failed + 1 ∧
              (DownloaderB.downloadAtPath ⟨true, ["home", "user"]⟩ ⟨false, ["downloads"]⟩
                p st ⟨1, 2, "report.pdf", 10, "application/pdf", 77⟩ env).1.fs = st.fs ∧
              (DownloaderB.downloadAtPath ⟨true, ["home", "user"]⟩ ⟨false, ["downloads"]⟩
                p st ⟨1, 2, "report.pdf", 10, "application/pdf", 77⟩ env).2 = (false, 0)) :=
  ⟨⟨rfl, by decide⟩, by decide,
    c8_path_safety ⟨true, ["home", "user"]⟩ ⟨false, ["downloads"]⟩ ⟨rfl, by decide⟩
      (by decide) ⟨1, 2, "report.pdf", 10, "application/pdf", 77⟩⟩

theorem downloadMedia_skip (cwd root : GoPath.GPath) (m : MediaInfo) (env : DlEnv)
    (st : PoolState) (hcwd : GoPath.cleanCwd cwd) (hmk : env.mkdirOk = true)
    (hfs : st.fs.contains (GoPath.render (DownloaderB.destPathB root m)) = true) :
    DownloaderB.DownloadMedia cwd root st m env =
      ({ st with stats := { st.stats with skipped := st.stats.skipped + 1 } }, true, 0) := by
  unfold DownloaderB.DownloadMedia DownloaderB.downloadAtPath
  rw [if_neg (by rw [hmk]; simp)]
  rw [isSafePath_destPathB cwd root m hcwd]
  simp only [Bool.not_true, Bool.false_eq_true, if_false]
  rw [hfs]
  simp

/-- Claim C7 counterexample.  Submitting a descriptor once (`N = 1`) to a
pool whose destination already exists increments `skipped` by 1, not by
`N - 1 = 0`: the pool counts a skip for every submission that finds the
destination present, so `N` submissions yield `N` increments, not `N - 1`. -/
theorem c7_counterexample :
    (DownloaderB.submitTimes ⟨true, ["home", "user"]⟩ ⟨false, ["downloads"]⟩
        ⟨1, 2, "report.pdf", 10, "application/pdf", 77⟩ ⟨true, true, true, true, true⟩ 1
        ⟨⟨0, 0, 0, 0, 0, 0⟩,
          [GoPath.render (DownloaderB.destPathB ⟨false, ["downloads"]⟩
            ⟨1, 2, "report.pdf", 10, "application/pdf", 77⟩)]⟩).1.stats.skipped = 1 ∧
      (1 : Nat) ≠ 1 - 1 := by
  decide

/-- Claim C7, amended.  For a well-formed working directory, a pool whose
`MkdirAll` succeeds and whose destination path for the descriptor already
exists in the file system, submitting the descriptor `N` times yields `N`
increments of `skipped` (not `N - 1`: the existence check fires on every
submission), zero invocations of the registered download function, success
on every submission, and no other state change. -/
theorem c7_skip_semantics (cwd root : GoPath.GPath) (m : MediaInfo) (env : DlEnv)
    (hcwd : GoPath.cleanCwd cwd) (hmk : env.mkdirOk = true) (n : Nat) (st : PoolState)
    (hfs : st.fs.contains (GoPath.render (DownloaderB.destPathB root m)) = true) :
    DownloaderB.submitTimes cwd root m env n st =
      ({ st with stats := { st.stats with skipped := st.stats.skipped + n } }, 0, true) := by
  induction n generalizing st with
  | zero =>
    rw [DownloaderB.submitTimes]
    simp
  | succ k ih =>
    rw [DownloaderB.submitTimes]
    rw [downloadMedia_skip cwd root m env st hcwd hmk hfs]
    dsimp only
    have h2 : ({ st with stats :=
        { st.stats with skipped := st.stats.skipped + 1 } } : PoolState).fs.contains
          (GoPath.render (DownloaderB.destPathB root m)) = true := hfs
    rw [ih _ h2]
    simp [Nat.add_assoc, Nat.add_comm 1 k]

/-- Claim C7 witness: two submissions of the same descriptor against a pool
that already holds the destination yield two skips, no download-function
call, and success both times; the hypotheses are discharged by computation. -/
theorem c7_witness :
    GoPath.cleanCwd ⟨true, ["home", "user"]⟩ ∧
      (⟨true, true, true, true, true⟩ : DlEnv).mkdirOk = true ∧
      (⟨⟨0, 0, 0, 0, 0, 0⟩,
          [GoPath.render (DownloaderB.destPathB ⟨false, ["downloads"]⟩
            ⟨1, 2, "report.pdf", 10, "application/pdf", 77⟩)]⟩ : PoolState).fs.contains
        (GoPath.render (DownloaderB.destPathB ⟨false, ["downloads"]⟩
          ⟨1, 2, "report.pdf", 10, "application/pdf", 77⟩)) = true ∧
      DownloaderB.submitTimes ⟨true, ["home", "user"]⟩ ⟨false, ["downloads"]⟩
          ⟨1, 2, "report.pdf", 10, "application/pdf", 77⟩ ⟨true, true, true, true, true⟩ 2
          ⟨⟨0, 0, 0, 0, 0, 0⟩,
            [GoPath.render (DownloaderB.destPathB ⟨false, ["downloads"]⟩
              ⟨1, 2, "report.pdf", 10, "application/pdf", 77⟩)]⟩ =
        (⟨⟨0, 0, 0, 2, 0, 0⟩,
          [GoPath.render (DownloaderB.destPathB ⟨false, ["downloads"]⟩
            ⟨1, 2, "report.pdf", 10, "application/pdf", 77⟩)]⟩, 0, true) :=
  ⟨⟨rfl, by decide⟩, rfl, by decide,
    c7_skip_semantics ⟨true, ["home", "user"]⟩ ⟨false, ["downloads"]⟩
      ⟨1, 2, "report.pdf", 10, "application/pdf", 77⟩ ⟨true, true, true, true, true⟩
      ⟨rfl, by decide⟩ rfl 2
      ⟨⟨0, 0, 0, 0, 0, 0⟩,
        [GoPath.render (DownloaderB.destPathB ⟨false, ["downloads"]⟩
          ⟨1, 2, "report.pdf", 10, "application/pdf", 77⟩)]⟩
      (by decide)⟩

theorem downloadMediaA_counters (root : GoPath.GPath) (st : PoolState) (m : MediaInfo)
    (env : DlEnv) :
    (DownloaderA.DownloadMedia root st m env).1.stats.total = st.stats.total ∧
      (((DownloaderA.DownloadMedia root st m env).1.stats.downloaded =
            st.stats.downloaded + 1 ∧
          (DownloaderA.DownloadMedia root st m env).1.stats.failed = st.stats.failed ∧
          (DownloaderA.DownloadMedia root st m env).1.stats.skipped = st.stats.skipped) ∨
        ((DownloaderA.DownloadMedia root st m env).1.stats.downloaded =
            st.stats.downloaded ∧
          (DownloaderA.DownloadMedia root st m env).1.stats.failed = st.stats.failed + 1 ∧
          (DownloaderA.DownloadMedia root st m env).1.stats.skipped = st.stats.skipped) ∨
        ((DownloaderA.DownloadMedia root st m env).1.stats.downloaded =
            st.stats.downloaded ∧
          (DownloaderA.DownloadMedia root st m env).1.stats.failed = st.stats.failed ∧
          (DownloaderA.DownloadMedia root st m env).1.stats.skipped =
            st.stats.skipped + 1)) := by
  rcases env with ⟨mk, hf, fo, co, ro⟩
  cases mk <;> cases hf <;> cases fo <;> cases co <;> cases ro <;>
    by_cases hc : GoPath.render (DownloaderA.destPathA root m) ∈ st.fs <;>
    simp [DownloaderA.DownloadMedia, updateStats, hc]

theorem runJobsA_counters (root : GoPath.GPath) (jobs : List (MediaInfo × DlEnv)) :
    ∀ st : PoolState,
      (DownloaderA.runJobs root st jobs).stats.total = st.stats.total ∧
        (DownloaderA.runJobs root st jobs).stats.downloaded +
            (DownloaderA.runJobs root st jobs).stats.failed +
            (DownloaderA.runJobs root st jobs).stats.skipped =
          st.stats.downloaded + st.stats.failed + st.stats.skipped + jobs.length := by
  induction jobs with
  | nil =>
    intro st
    exact ⟨rfl, rfl⟩
  | cons j rest ih =>
    intro st
    obtain ⟨m, env⟩ := j
    rw [DownloaderA.runJobs]
    obtain ⟨h1, h2⟩ := ih (DownloaderA.DownloadMedia root st m env).1
    obtain ⟨g1, g2⟩ := downloadMediaA_counters root st m env
    constructor
    · rw [h1, g1]
    · rw [h2]
      rcases g2 with ⟨e1, e2, e3⟩ | ⟨e1, e2, e3⟩ | ⟨e1, e2, e3⟩ <;>
        · rw [e1, e2, e3]
          simp only [List.length_cons]
          omega

/-- Claim C10.  Every terminating `DownloadMedia` call increments exactly one
of `Downloaded`, `Failed`, `Skipped` by exactly 1 and leaves `Total`
unchanged; `DownloadBatch` adds the batch length to `Total` before any
download runs; and consequently a batch of `n` jobs followed by `Wait()`
raises both `Total` and `Downloaded + Failed + Skipped` by exactly `n` from
any starting stats state. -/
theorem c10_stats_accounting (root : GoPath.GPath) :
    (∀ (st : PoolState) (m : MediaInfo) (env : DlEnv),
      (DownloaderA.DownloadMedia root st m env).1.stats.total = st.stats.total ∧
        (((DownloaderA.DownloadMedia root st m env).1.stats.downloaded =
              st.stats.downloaded + 1 ∧
            (DownloaderA.DownloadMedia root st m env).1.stats.failed = st.stats.failed ∧
            (DownloaderA.DownloadMedia root st m env).1.stats.skipped =
              st.stats.skipped) ∨
          ((DownloaderA.DownloadMedia root st m env).1.stats.downloaded =
              st.stats.downloaded ∧
            (DownloaderA.DownloadMedia root st m env).1.stats.failed =
              st.stats.failed + 1 ∧
            (DownloaderA.DownloadMedia root st m env).1.stats.skipped =
              st.stats.skipped) ∨
          ((DownloaderA.DownloadMedia root st m env).1.stats.downloaded =
              st.stats.downloaded ∧
            (DownloaderA.DownloadMedia root st m env).1.stats.failed = st.stats.failed ∧
            (DownloaderA.DownloadMedia root st m env).1.stats.skipped =
              st.stats.skipped + 1))) ∧
      (∀ (st : PoolState) (list : List MediaInfo),
        (DownloaderA.downloadBatchStart st list).stats.total =
          st.stats.total + list.length) ∧
      ∀ (st : PoolState) (jobs : List (MediaInfo × DlEnv)),
        (DownloaderA.downloadBatchThenWait root st jobs).stats.total =
            st.stats.total + jobs.length ∧
          (DownloaderA.downloadBatchThenWait root st jobs).stats.downloaded +
              (DownloaderA.downloadBatchThenWait root st jobs).stats.failed +
              (DownloaderA.downloadBatchThenWait root st jobs).stats.skipped =
            st.stats.downloaded + st.stats.failed + st.stats.skipped + jobs.length := by
  refine ⟨fun st m env => downloadMediaA_counters root st m env,
    fun st list => rfl, fun st jobs => ?_⟩
  unfold DownloaderA.downloadBatchThenWait
  obtain ⟨h1, h2⟩ := runJobsA_counters root jobs (DownloaderA.downloadBatchStart st
    (jobs.map Prod.fst))
  constructor
  · rw [h1]
    simp [DownloaderA.downloadBatchStart]
  · rw [h2]
    simp [DownloaderA.downloadBatchStart]
